import Mathlib

/-!
# WebPlayer core: a shallow embedding with proofs

This file embeds the numeric and data-structure kernels of the WebPlayer
repository (media clock, frame ring buffer, MPEG-TS demuxer bit-twiddling,
Annex-B/AVCC conversion, ADTS framing, orchestrator pump/eviction logic)
as executable Lean definitions, and proves the specification's quantified
properties about them.

Conventions:
* JavaScript `number` values that the source only ever combines with exact
  `+ - *` and comparisons are modelled as exact rationals (`ℚ`) or integers
  (`Int`); byte values are `Nat` with explicit `< 256` bounds where needed.
* `Uint8Array` buffers are `List Nat`; `data[i]` is `List.getD data i 0`
  (a read past the end yields `undefined`, which every comparison in the
  translated code treats as a mismatch, so the default `0` is only used
  under explicit in-bounds conditions mirrored from the source).
* `Math.round` on nonnegative arguments is `⌊x + 1/2⌋`, embedded for a
  quotient `num / den` of naturals as `(2 * num + den) / (2 * den)`.
-/

/-! ## MediaClock (src/unnamed/part_004, `MediaClock`) -/

structure MediaClock where
  baseTimestampUs : ℚ := 0
  baseWallClockMs : ℚ := 0
  pausedAtWallClockMs : Option ℚ := none
  pausedAtTimestampUs : ℚ := 0
  playbackRate : ℚ := 1
deriving Repr, DecidableEq

namespace MediaClock

/-- `nowUs(nowWallClockMs)`: latched value while paused, otherwise the
affine wall-clock mapping. -/
def nowUs (c : MediaClock) (nowWallClockMs : ℚ) : ℚ :=
  match c.pausedAtWallClockMs with
  | some _ => c.pausedAtTimestampUs
  | none =>
      let elapsedMs := nowWallClockMs - c.baseWallClockMs
      c.baseTimestampUs + elapsedMs * 1000 * c.playbackRate

/-- `start(startTimestampUs, nowWallClockMs)`. -/
def start (startTimestampUs nowWallClockMs : ℚ) : MediaClock :=
  { baseTimestampUs := startTimestampUs
    baseWallClockMs := nowWallClockMs
    pausedAtWallClockMs := none
    pausedAtTimestampUs := startTimestampUs
    playbackRate := 1 }

/-- `pause(nowWallClockMs)`: early return when already paused; otherwise the
source first assigns `pausedAtWallClockMs` and only then latches
`pausedAtTimestampUs := this.nowUs(nowWallClockMs)` (which, the pause flag
now being set, reads the previously latched value).  The sequencing is
preserved exactly. -/
def pause (c : MediaClock) (nowWallClockMs : ℚ) : MediaClock :=
  match c.pausedAtWallClockMs with
  | some _ => c
  | none =>
      let c1 := { c with pausedAtWallClockMs := some nowWallClockMs }
      { c1 with pausedAtTimestampUs := c1.nowUs nowWallClockMs }

/-- `resume(nowWallClockMs)`: early return when not paused; otherwise rebase at
the latched timestamp. -/
def resume (c : MediaClock) (nowWallClockMs : ℚ) : MediaClock :=
  match c.pausedAtWallClockMs with
  | none => c
  | some _ =>
      { c with
        baseTimestampUs := c.pausedAtTimestampUs
        baseWallClockMs := nowWallClockMs
        pausedAtWallClockMs := none }

/-- `seek(timestampUs, nowWallClockMs)`. -/
def seek (c : MediaClock) (timestampUs nowWallClockMs : ℚ) : MediaClock :=
  let c1 := { c with baseTimestampUs := timestampUs, baseWallClockMs := nowWallClockMs }
  match c1.pausedAtWallClockMs with
  | some _ =>
      { c1 with pausedAtTimestampUs := timestampUs, pausedAtWallClockMs := some nowWallClockMs }
  | none => c1

end MediaClock

/-- C1: the running-clock affine formula, the paused latch, and the resume
rebase property, stated over the embedded `MediaClock`. -/
theorem mediaClock_contract (c : MediaClock) (w : ℚ) :
    (c.pausedAtWallClockMs = none →
      c.nowUs w = c.baseTimestampUs + (w - c.baseWallClockMs) * 1000 * c.playbackRate) ∧
    (∀ w', c.pausedAtWallClockMs ≠ none →
      c.nowUs w = c.pausedAtTimestampUs ∧ c.nowUs w = c.nowUs w') ∧
    (c.pausedAtWallClockMs ≠ none →
      (c.resume w).nowUs w = c.pausedAtTimestampUs) := by
  refine ⟨?_, ?_, ?_⟩
  · intro h
    simp only [MediaClock.nowUs, h]
  · intro w' h
    cases hp : c.pausedAtWallClockMs with
    | none => exact absurd hp h
    | some p => simp [MediaClock.nowUs, hp]
  · intro h
    cases hp : c.pausedAtWallClockMs with
    | none => exact absurd hp h
    | some p => simp [MediaClock.resume, MediaClock.nowUs, hp]

/-- Witness for C1 at a concrete clock state. -/
theorem mediaClock_contract_witness :
    ((MediaClock.start 7 2).nowUs 5 =
        (MediaClock.start 7 2).baseTimestampUs +
          (5 - (MediaClock.start 7 2).baseWallClockMs) * 1000 *
            (MediaClock.start 7 2).playbackRate) ∧
    (((MediaClock.start 7 2).pause 5).nowUs 9 =
        ((MediaClock.start 7 2).pause 5).pausedAtTimestampUs) ∧
    ((((MediaClock.start 7 2).pause 5).resume 9).nowUs 9 =
        ((MediaClock.start 7 2).pause 5).pausedAtTimestampUs) := by
  refine ⟨(mediaClock_contract (MediaClock.start 7 2) 5).1 (by decide), ?_, ?_⟩
  · exact (((mediaClock_contract ((MediaClock.start 7 2).pause 5) 9).2.1) 9 (by decide)).1
  · exact (mediaClock_contract ((MediaClock.start 7 2).pause 5) 9).2.2 (by decide)

/-- C10: a redundant `pause` (already paused) and a redundant `resume`
(not paused) leave the whole clock state, and hence `nowUs`, unchanged. -/
theorem mediaClock_redundant_ops (c : MediaClock) (w : ℚ) :
    (c.pausedAtWallClockMs ≠ none → c.pause w = c) ∧
    (c.pausedAtWallClockMs = none → c.resume w = c) ∧
    (∀ w', c.pausedAtWallClockMs ≠ none → (c.pause w).nowUs w' = c.nowUs w') ∧
    (∀ w', c.pausedAtWallClockMs = none → (c.resume w).nowUs w' = c.nowUs w') := by
  refine ⟨?_, ?_, ?_, ?_⟩
  · intro h
    cases hp : c.pausedAtWallClockMs with
    | none => exact absurd hp h
    | some p => simp [MediaClock.pause, hp]
  · intro h
    simp [MediaClock.resume, h]
  · intro w' h
    cases hp : c.pausedAtWallClockMs with
    | none => exact absurd hp h
    | some p => simp [MediaClock.pause, hp]
  · intro w' h
    simp [MediaClock.resume, h]

/-- Witness for C10 at a concrete clock state. -/
theorem mediaClock_redundant_ops_witness :
    (((MediaClock.start 7 2).pause 5).pause 11 = (MediaClock.start 7 2).pause 5) ∧
    ((MediaClock.start 7 2).resume 11 = MediaClock.start 7 2) := by
  constructor
  · exact (mediaClock_redundant_ops ((MediaClock.start 7 2).pause 5) 11).1 (by decide)
  · exact (mediaClock_redundant_ops (MediaClock.start 7 2) 11).2.1 (by decide)

/-! ## RingBuffer (src/unnamed/part_004, `RingBuffer<T>`) -/

structure RingBuffer (T : Type) where
  capacity : Nat
  buffer : List (Option T)
  head : Nat
  tail : Nat
  count : Nat
deriving Repr, DecidableEq

namespace RingBuffer

/-- `new RingBuffer<T>(capacity)` (the `capacity > 0` guard throws in the
source; the constructor below is the post-guard state). -/
def new (T : Type) (capacity : Nat) : RingBuffer T :=
  { capacity := capacity
    buffer := List.replicate capacity none
    head := 0
    tail := 0
    count := 0 }

/-- `clear()`: `buffer.fill(undefined)` and reset of the three counters. -/
def clear (rb : RingBuffer T) : RingBuffer T :=
  { rb with buffer := rb.buffer.map fun _ => none, head := 0, tail := 0, count := 0 }

/-- `push(value)`: returns `false` when `count >= capacity`, otherwise writes
at `tail`, advances `tail` modulo `capacity` and increments `count`. -/
def push (rb : RingBuffer T) (value : T) : Bool × RingBuffer T :=
  if rb.capacity ≤ rb.count then (false, rb)
  else
    (true,
      { rb with
        buffer := rb.buffer.set rb.tail (some value)
        tail := (rb.tail + 1) % rb.capacity
        count := rb.count + 1 })

/-- `shift()`: returns `undefined` when empty, otherwise reads the slot at
`head`, blanks it, advances `head` modulo `capacity` and decrements `count`. -/
def shift (rb : RingBuffer T) : Option T × RingBuffer T :=
  if rb.count = 0 then (none, rb)
  else
    (rb.buffer.getD rb.head none,
      { rb with
        buffer := rb.buffer.set rb.head none
        head := (rb.head + 1) % rb.capacity
        count := rb.count - 1 })

/-- `peek()`. -/
def peek (rb : RingBuffer T) : Option T :=
  if rb.count = 0 then none else rb.buffer.getD rb.head none

/-- Well-formedness: the representation invariant the constructor establishes
and every operation preserves. -/
def WF (rb : RingBuffer T) : Prop :=
  rb.buffer.length = rb.capacity ∧
  rb.count ≤ rb.capacity ∧
  rb.head < rb.capacity ∧
  rb.tail = (rb.head + rb.count) % rb.capacity ∧
  ∀ i, i < rb.count → (rb.buffer.getD ((rb.head + i) % rb.capacity) none).isSome

/-- The queue abstraction: the stored elements from oldest (`head`) to newest. -/
def toList (rb : RingBuffer T) : List (Option T) :=
  (List.range rb.count).map fun i => rb.buffer.getD ((rb.head + i) % rb.capacity) none

theorem length_toList (rb : RingBuffer T) : rb.toList.length = rb.count := by
  simp [toList]

theorem slot_ne {cap h i j : Nat} (hi : i < cap) (hj : j < cap) (hij : i ≠ j) :
    (h + i) % cap ≠ (h + j) % cap := by
  intro heq
  have hmod : i ≡ j [MOD cap] := Nat.ModEq.add_left_cancel' h heq
  have : i % cap = j % cap := hmod
  rw [Nat.mod_eq_of_lt hi, Nat.mod_eq_of_lt hj] at this
  exact hij this

theorem WF.new (T : Type) (cap : Nat) (hcap : 0 < cap) : WF (RingBuffer.new T cap) := by
  refine ⟨by simp [RingBuffer.new], by simp [RingBuffer.new], ?_, by simp [RingBuffer.new], ?_⟩
  · simpa [RingBuffer.new] using hcap
  · intro i hi
    simp [RingBuffer.new] at hi

theorem push_full {rb : RingBuffer T} (v : T) (h : rb.capacity ≤ rb.count) :
    rb.push v = (false, rb) := by
  simp [push, h]

theorem WF.push {rb : RingBuffer T} (h : WF rb) (v : T) (hnf : rb.count < rb.capacity) :
    (rb.push v).1 = true ∧
    WF (rb.push v).2 ∧
    (rb.push v).2.toList = rb.toList ++ [some v] ∧
    (rb.push v).2.count = rb.count + 1 ∧
    (rb.push v).2.capacity = rb.capacity := by
  obtain ⟨hlen, hcnt, hhead, htail, hocc⟩ := h
  have hcap : 0 < rb.capacity := Nat.lt_of_le_of_lt (Nat.zero_le _) hnf
  have hnotfull : ¬ rb.capacity ≤ rb.count := Nat.not_le.mpr hnf
  have htail_lt : rb.tail < rb.buffer.length := by
    rw [hlen, htail]; exact Nat.mod_lt _ hcap
  -- the written slot is strictly beyond every occupied slot
  have hfresh : ∀ i, i < rb.count → (rb.head + i) % rb.capacity ≠ rb.tail := by
    intro i hi
    rw [htail]
    exact slot_ne (Nat.lt_of_lt_of_le hi hcnt) hnf (Nat.ne_of_lt hi)
  have hget_old : ∀ i, i < rb.count →
      (rb.buffer.set rb.tail (some v)).getD ((rb.head + i) % rb.capacity) none =
        rb.buffer.getD ((rb.head + i) % rb.capacity) none := by
    intro i hi
    simp only [List.getD_eq_getElem?_getD]
    rw [List.getElem?_set_ne (Ne.symm (hfresh i hi))]
  have hget_new :
      (rb.buffer.set rb.tail (some v)).getD ((rb.head + rb.count) % rb.capacity) none = some v := by
    simp only [List.getD_eq_getElem?_getD, ← htail]
    rw [List.getElem?_set_self htail_lt]
    rfl
  refine ⟨by simp [RingBuffer.push, hnotfull], ⟨?_, ?_, ?_, ?_, ?_⟩, ?_, ?_, ?_⟩
  · simp [RingBuffer.push, hnotfull, hlen]
  · simpa [RingBuffer.push, hnotfull] using hnf
  · simpa [RingBuffer.push, hnotfull] using hhead
  · simp only [RingBuffer.push, hnotfull, if_false]
    rw [htail]
    simp [Nat.mod_add_mod, Nat.add_assoc]
  · intro i hi
    simp only [RingBuffer.push, hnotfull, if_false] at hi ⊢
    rcases Nat.lt_succ_iff_lt_or_eq.mp hi with hlt | heq
    · rw [hget_old i hlt]
      exact hocc i hlt
    · subst heq
      rw [hget_new]
      rfl
  · simp only [RingBuffer.push, hnotfull, if_false, toList, List.range_succ, List.map_append,
      List.map_cons, List.map_nil]
    congr 1
    · exact List.map_congr_left fun i hi => hget_old i (List.mem_range.mp hi)
    · rw [hget_new]
  · simp [RingBuffer.push, hnotfull]
  · simp [RingBuffer.push, hnotfull]

theorem WF.shift {rb : RingBuffer T} (h : WF rb) (hne : 0 < rb.count) :
    (rb.shift).1.isSome ∧
    WF (rb.shift).2 ∧
    rb.toList = (rb.shift).1 :: (rb.shift).2.toList ∧
    (rb.shift).2.count = rb.count - 1 ∧
    (rb.shift).2.capacity = rb.capacity := by
  obtain ⟨hlen, hcnt, hhead, htail, hocc⟩ := h
  have hcap : 0 < rb.capacity := Nat.lt_of_lt_of_le hne hcnt
  have hnz : ¬ rb.count = 0 := Nat.pos_iff_ne_zero.mp hne
  have hhead_lt : rb.head < rb.buffer.length := by rw [hlen]; exact hhead
  have hhead_mod : rb.head % rb.capacity = rb.head := Nat.mod_eq_of_lt hhead
  -- slots surviving the blanking of `head`
  have hget_old : ∀ i, i + 1 < rb.count →
      (rb.buffer.set rb.head none).getD (((rb.head + 1) % rb.capacity + i) % rb.capacity) none =
        rb.buffer.getD ((rb.head + (i + 1)) % rb.capacity) none := by
    intro i hi
    have hidx : ((rb.head + 1) % rb.capacity + i) % rb.capacity =
        (rb.head + (i + 1)) % rb.capacity := by
      rw [Nat.mod_add_mod]
      ring_nf
    have hne' : (rb.head + (i + 1)) % rb.capacity ≠ rb.head := by
      have := @slot_ne rb.capacity rb.head (i + 1) 0
        (Nat.lt_of_lt_of_le hi hcnt) hcap (Nat.succ_ne_zero i)
      simpa [hhead_mod] using this
    rw [hidx]
    simp only [List.getD_eq_getElem?_getD]
    rw [List.getElem?_set_ne (Ne.symm hne')]
  refine ⟨?_, ⟨?_, ?_, ?_, ?_, ?_⟩, ?_, ?_, ?_⟩
  · have := hocc 0 hne
    simpa [RingBuffer.shift, hnz, hhead_mod] using this
  · simp [RingBuffer.shift, hnz, hlen]
  · simp only [RingBuffer.shift, hnz, if_false]
    exact Nat.le_trans (Nat.sub_le _ _) hcnt
  · simp only [RingBuffer.shift, hnz, if_false]
    exact Nat.mod_lt _ hcap
  · simp only [RingBuffer.shift, hnz, if_false]
    rw [htail, Nat.mod_add_mod]
    congr 1
    omega
  · intro i hi
    simp only [RingBuffer.shift, hnz, if_false] at hi ⊢
    have hi' : i + 1 < rb.count := by omega
    rw [hget_old i hi']
    exact hocc (i + 1) hi'
  · have hsplit : rb.count = (rb.count - 1) + 1 := by omega
    simp only [RingBuffer.shift, hnz, if_false, toList]
    rw [hsplit, List.range_succ_eq_map, List.map_cons, List.map_map]
    congr 1
    · simp [hhead_mod]
    · refine List.map_congr_left fun i hi => ?_
      have hi' : i + 1 < rb.count := by
        have := List.mem_range.mp hi; omega
      exact (hget_old i hi').symm
  · simp [RingBuffer.shift, hnz]
  · simp [RingBuffer.shift, hnz]

end RingBuffer

namespace RingBuffer

/-- The three mutating operations a client can issue. -/
inductive Op (T : Type) where
  | push (v : T)
  | shift
  | clear
deriving Repr, DecidableEq

def applyOp (rb : RingBuffer T) : Op T → RingBuffer T
  | .push v => (rb.push v).2
  | .shift => rb.shift.2
  | .clear => rb.clear

theorem capacity_applyOp (rb : RingBuffer T) (op : Op T) :
    (rb.applyOp op).capacity = rb.capacity := by
  cases op with
  | push v =>
      by_cases h : rb.capacity ≤ rb.count <;> simp [applyOp, push, h]
  | shift =>
      by_cases h : rb.count = 0 <;> simp [applyOp, shift, h]
  | clear => simp [applyOp, clear]

theorem count_le_applyOp (rb : RingBuffer T) (op : Op T) (h : rb.count ≤ rb.capacity) :
    (rb.applyOp op).count ≤ (rb.applyOp op).capacity := by
  rw [capacity_applyOp]
  cases op with
  | push v =>
      by_cases hf : rb.capacity ≤ rb.count
      · simpa [applyOp, push, hf] using h
      · simp only [applyOp, push, hf, if_false]
        omega
  | shift =>
      by_cases hz : rb.count = 0
      · simp only [applyOp, shift, hz, if_true, ite_true]
        omega
      · simp only [applyOp, shift, hz, if_false]
        omega
  | clear => simp [applyOp, clear]

theorem count_le_capacity_run (T : Type) (cap : Nat) (ops : List (Op T)) :
    (ops.foldl applyOp (RingBuffer.new T cap)).count ≤ cap := by
  suffices h : ∀ rb : RingBuffer T, rb.count ≤ rb.capacity → rb.capacity = cap →
      (ops.foldl applyOp rb).count ≤ cap by
    exact h _ (by simp [RingBuffer.new]) (by simp [RingBuffer.new])
  induction ops with
  | nil => intro rb h hc; simpa [hc] using h
  | cons op rest ih =>
      intro rb h hc
      exact ih _ (count_le_applyOp rb op h) ((capacity_applyOp rb op).trans hc)

end RingBuffer

/-! ## Orchestrator frame accounting
(src/src/core/player.ts: `onDecodedVideoFrame`, the render loop's
pop-render-close step, and `teardownWebCodecsPipeline`'s drain loop) -/

/-- Decoded frames are identified by a `Nat`; the session counts successful
ring pushes and `VideoFrame.close()` calls. -/
structure VideoSession where
  frameQueue : RingBuffer Nat
  pushes : Nat
  closes : Nat
deriving Repr, DecidableEq

namespace VideoSession

def init : VideoSession :=
  { frameQueue := RingBuffer.new Nat 8, pushes := 0, closes := 0 }

/-- `onDecodedVideoFrame` (player.ts 1675-1685), restricted to its frame-queue
effect (the clock-start branch touches no frame or queue state): try `push`;
on failure `shift` the head, `close` it when present (`dropped?.close()`), then
`push` again. -/
def onDecodedVideoFrame (s : VideoSession) (frame : Nat) : VideoSession :=
  let r := s.frameQueue.push frame
  if r.1 then
    { s with frameQueue := r.2, pushes := s.pushes + 1 }
  else
    let d := s.frameQueue.shift
    let closes := s.closes + (if d.1.isSome then 1 else 0)
    let r2 := d.2.push frame
    { frameQueue := r2.2
      pushes := s.pushes + (if r2.1 then 1 else 0)
      closes := closes }

/-- One pop-render-close iteration of the render loop (player.ts 1745-1753):
`shift`, and `close` the frame when one came out (rendering itself does not
touch the accounting). -/
def renderOne (s : VideoSession) : VideoSession :=
  let d := s.frameQueue.shift
  match d.1 with
  | some _ => { s with frameQueue := d.2, closes := s.closes + 1 }
  | none => { s with frameQueue := d.2 }

/-- The drain loop of `teardownWebCodecsPipeline` (player.ts 1771-1775):
`shift` and `close` until `shift` yields `undefined`.  `fuel` bounds the
iteration count; `count + 1` always suffices because `shift` decrements
`count` whenever it yields a frame. -/
def drainLoop (s : VideoSession) : Nat → VideoSession
  | 0 => s
  | fuel + 1 =>
      let d := s.frameQueue.shift
      match d.1 with
      | none => { s with frameQueue := d.2 }
      | some _ => drainLoop { s with frameQueue := d.2, closes := s.closes + 1 } fuel

/-- `teardownWebCodecsPipeline`'s frame-queue part: drain-and-close, then
`clear()`. -/
def teardown (s : VideoSession) : VideoSession :=
  let s1 := drainLoop s (s.frameQueue.count + 1)
  { s1 with frameQueue := s1.frameQueue.clear }

/-- Externally driven events of a running session. -/
inductive Event where
  | arrive (frame : Nat)
  | render
deriving Repr, DecidableEq

def applyEvent (s : VideoSession) : Event → VideoSession
  | .arrive f => s.onDecodedVideoFrame f
  | .render => s.renderOne

def run (events : List Event) : VideoSession :=
  events.foldl applyEvent init

/-- The session invariant: a well-formed ring of capacity 8 whose occupancy
accounts for every pushed-but-not-yet-closed frame. -/
def Inv (s : VideoSession) : Prop :=
  s.frameQueue.WF ∧ s.frameQueue.capacity = 8 ∧
  s.pushes = s.closes + s.frameQueue.count

theorem inv_init : Inv init := by
  refine ⟨RingBuffer.WF.new Nat 8 (by omega), by simp [init, RingBuffer.new], ?_⟩
  simp [init, RingBuffer.new]
/-- `onDecodedVideoFrame` when the ring still has room: a plain successful
push. -/
theorem onDecodedVideoFrame_nonfull {s : VideoSession} (hwf : s.frameQueue.WF) (f : Nat)
    (hnf : s.frameQueue.count < s.frameQueue.capacity) :
    s.onDecodedVideoFrame f =
      { frameQueue := (s.frameQueue.push f).2, pushes := s.pushes + 1, closes := s.closes } := by
  obtain ⟨hok, _, _, _, _⟩ := hwf.push f hnf
  simp [onDecodedVideoFrame, hok]

/-- `onDecodedVideoFrame` when the ring is full: evict the head, close it,
re-push. -/
theorem onDecodedVideoFrame_full {s : VideoSession} (hwf : s.frameQueue.WF) (f : Nat)
    (hfull : s.frameQueue.capacity ≤ s.frameQueue.count) (hpos : 0 < s.frameQueue.capacity) :
    s.onDecodedVideoFrame f =
      { frameQueue := ((s.frameQueue.shift).2.push f).2
        pushes := s.pushes + 1
        closes := s.closes + 1 } := by
  have hposcnt : 0 < s.frameQueue.count := Nat.lt_of_lt_of_le hpos hfull
  have hfalse := @RingBuffer.push_full Nat s.frameQueue f hfull
  obtain ⟨hsome, hwf2, hlist2, hcnt2, hcap2⟩ := hwf.shift hposcnt
  have hle := hwf.2.1
  have hroom : (s.frameQueue.shift).2.count < (s.frameQueue.shift).2.capacity := by
    omega
  obtain ⟨hok3, _, _, _, _⟩ := hwf2.push f hroom
  simp [onDecodedVideoFrame, hfalse, hsome, hok3]

theorem inv_onDecodedVideoFrame {s : VideoSession} (h : Inv s) (f : Nat) :
    Inv (s.onDecodedVideoFrame f) := by
  obtain ⟨hwf, hcap, hacc⟩ := h
  by_cases hnf : s.frameQueue.count < s.frameQueue.capacity
  · obtain ⟨hok, hwf', hlist', hcnt', hcap'⟩ := hwf.push f hnf
    rw [onDecodedVideoFrame_nonfull hwf f hnf]
    exact ⟨hwf', hcap'.trans hcap, by simp only [hcnt']; omega⟩
  · have hfull : s.frameQueue.capacity ≤ s.frameQueue.count := Nat.not_lt.mp hnf
    have hpos : 0 < s.frameQueue.capacity := by omega
    rw [onDecodedVideoFrame_full hwf f hfull hpos]
    obtain ⟨hsome, hwf2, hlist2, hcnt2, hcap2⟩ := hwf.shift (Nat.lt_of_lt_of_le hpos hfull)
    have hle := hwf.2.1
    have hroom : (s.frameQueue.shift).2.count < (s.frameQueue.shift).2.capacity := by omega
    obtain ⟨hok3, hwf3, hlist3, hcnt3, hcap3⟩ := hwf2.push f hroom
    refine ⟨hwf3, ?_, ?_⟩
    · show ((s.frameQueue.shift).2.push f).2.capacity = 8
      omega
    · show s.pushes + 1 = s.closes + 1 + ((s.frameQueue.shift).2.push f).2.count
      omega

theorem inv_renderOne {s : VideoSession} (h : Inv s) : Inv s.renderOne := by
  obtain ⟨hwf, hcap, hacc⟩ := h
  by_cases hz : s.frameQueue.count = 0
  · have hid : s.frameQueue.shift = (none, s.frameQueue) := by
      simp [RingBuffer.shift, hz]
    refine ⟨?_, ?_, ?_⟩ <;> simp [renderOne, hid, hwf, hcap, hacc]
  · have hpos : 0 < s.frameQueue.count := Nat.pos_of_ne_zero hz
    obtain ⟨hsome, hwf2, hlist2, hcnt2, hcap2⟩ := hwf.shift hpos
    rcases hval : (s.frameQueue.shift).1 with _ | v
    · rw [hval] at hsome; cases hsome
    · refine ⟨?_, ?_, ?_⟩ <;> simp only [renderOne, hval]
      · exact hwf2
      · omega
      · simp only [hcnt2]
        omega

theorem inv_run (events : List Event) : Inv (run events) := by
  suffices h : ∀ s : VideoSession, Inv s → Inv (events.foldl applyEvent s) from
    h init inv_init
  induction events with
  | nil => intro s h; exact h
  | cons e rest ih =>
      intro s h
      cases e with
      | arrive f => exact ih _ (inv_onDecodedVideoFrame h f)
      | render => exact ih _ (inv_renderOne h)

theorem drainLoop_spec {s : VideoSession} (h : s.frameQueue.WF) (fuel : Nat)
    (hfuel : s.frameQueue.count < fuel) :
    (s.drainLoop fuel).closes = s.closes + s.frameQueue.count ∧
    (s.drainLoop fuel).pushes = s.pushes ∧
    (s.drainLoop fuel).frameQueue.count = 0 := by
  induction fuel generalizing s with
  | zero => omega
  | succ fuel ih =>
      by_cases hz : s.frameQueue.count = 0
      · have hid : s.frameQueue.shift = (none, s.frameQueue) := by
          simp [RingBuffer.shift, hz]
        simp [drainLoop, hid, hz]
      · have hpos : 0 < s.frameQueue.count := Nat.pos_of_ne_zero hz
        obtain ⟨hsome, hwf2, hlist2, hcnt2, hcap2⟩ := h.shift hpos
        rcases hval : (s.frameQueue.shift).1 with _ | v
        · rw [hval] at hsome; cases hsome
        · have hlt : (VideoSession.mk (s.frameQueue.shift).2 s.pushes
              (s.closes + 1)).frameQueue.count < fuel := by
            show (s.frameQueue.shift).2.count < fuel
            omega
          have hrec := @ih (VideoSession.mk (s.frameQueue.shift).2 s.pushes (s.closes + 1))
            hwf2 hlt
          simp only [drainLoop, hval] at hrec ⊢
          obtain ⟨h1, h2, h3⟩ := hrec
          refine ⟨?_, h2, h3⟩
          rw [h1]
          show s.closes + 1 + (s.frameQueue.shift).2.count = s.closes + s.frameQueue.count
          omega

theorem teardown_closes_eq_pushes {s : VideoSession} (h : Inv s) :
    (s.teardown).closes = (s.teardown).pushes ∧ (s.teardown).pushes = s.pushes := by
  obtain ⟨hwf, hcap, hacc⟩ := h
  obtain ⟨hcl, hpu, hcnt⟩ := drainLoop_spec hwf (s.frameQueue.count + 1) (by omega)
  refine ⟨?_, ?_⟩ <;> simp [teardown, hcl, hpu, hacc]

end VideoSession

/-- C2: (a) over any operation sequence the ring's `count` never exceeds the
fixed capacity; (b) `push` returns `false` when the buffer is full; (c) in
the orchestrator, overflow evicts the head — the oldest frame — closes it,
and only then pushes the new frame, the queue afterwards holding the old
contents minus the head plus the new frame; (d) over any session, after
teardown the total number of `close()` calls equals the total number of
successful pushes. -/
theorem frameRing_bounds_and_close_accounting
    (T : Type) (cap : Nat) (ops : List (RingBuffer.Op T))
    (rb : RingBuffer T) (v : T)
    (events : List VideoSession.Event) (f : Nat) :
    ((ops.foldl RingBuffer.applyOp (RingBuffer.new T cap)).count ≤ cap) ∧
    (rb.capacity ≤ rb.count → rb.push v = (false, rb)) ∧
    ((VideoSession.run events).frameQueue.count = 8 →
      ((VideoSession.run events).onDecodedVideoFrame f).closes =
          (VideoSession.run events).closes + 1 ∧
      ((VideoSession.run events).onDecodedVideoFrame f).pushes =
          (VideoSession.run events).pushes + 1 ∧
      ((VideoSession.run events).onDecodedVideoFrame f).frameQueue.toList =
          (VideoSession.run events).frameQueue.toList.drop 1 ++ [some f]) ∧
    (((VideoSession.run events).teardown).closes =
        ((VideoSession.run events).teardown).pushes ∧
      ((VideoSession.run events).teardown).pushes = (VideoSession.run events).pushes) := by
  obtain ⟨hwf, hcap, hacc⟩ := VideoSession.inv_run events
  refine ⟨RingBuffer.count_le_capacity_run T cap ops, fun h => RingBuffer.push_full v h, ?_,
    VideoSession.teardown_closes_eq_pushes ⟨hwf, hcap, hacc⟩⟩
  intro hfull
  have hge : (VideoSession.run events).frameQueue.capacity ≤
      (VideoSession.run events).frameQueue.count := by omega
  have hpos : 0 < (VideoSession.run events).frameQueue.capacity := by omega
  rw [VideoSession.onDecodedVideoFrame_full hwf f hge hpos]
  obtain ⟨hsome, hwf2, hlist2, hcnt2, hcap2⟩ := hwf.shift (Nat.lt_of_lt_of_le hpos hge)
  have hle := hwf.2.1
  have hroom : ((VideoSession.run events).frameQueue.shift).2.count <
      ((VideoSession.run events).frameQueue.shift).2.capacity := by omega
  obtain ⟨hok3, hwf3, hlist3, hcnt3, hcap3⟩ := hwf2.push f hroom
  refine ⟨rfl, rfl, ?_⟩
  show (((VideoSession.run events).frameQueue.shift).2.push f).2.toList = _
  rw [hlist3, hlist2]
  simp

/-- Witness for C2 at concrete inputs, including a full ring being evicted. -/
theorem frameRing_bounds_and_close_accounting_witness :
    ((([RingBuffer.Op.push 1, RingBuffer.Op.push 2, RingBuffer.Op.shift]).foldl
        RingBuffer.applyOp (RingBuffer.new Nat 2)).count ≤ 2) ∧
    ((RingBuffer.new Nat 0).push 7 = (false, RingBuffer.new Nat 0)) ∧
    (((VideoSession.run (List.replicate 9 (VideoSession.Event.arrive 3))).onDecodedVideoFrame 5).closes =
        (VideoSession.run (List.replicate 9 (VideoSession.Event.arrive 3))).closes + 1 ∧
      ((VideoSession.run (List.replicate 9 (VideoSession.Event.arrive 3))).onDecodedVideoFrame 5).pushes =
        (VideoSession.run (List.replicate 9 (VideoSession.Event.arrive 3))).pushes + 1 ∧
      ((VideoSession.run (List.replicate 9 (VideoSession.Event.arrive 3))).onDecodedVideoFrame 5).frameQueue.toList =
        (VideoSession.run (List.replicate 9 (VideoSession.Event.arrive 3))).frameQueue.toList.drop 1
          ++ [some 5]) ∧
    (((VideoSession.run (List.replicate 9 (VideoSession.Event.arrive 3))).teardown).closes =
        ((VideoSession.run (List.replicate 9 (VideoSession.Event.arrive 3))).teardown).pushes ∧
      ((VideoSession.run (List.replicate 9 (VideoSession.Event.arrive 3))).teardown).pushes =
        (VideoSession.run (List.replicate 9 (VideoSession.Event.arrive 3))).pushes) := by
  obtain ⟨h1, h2, h3, h4⟩ := frameRing_bounds_and_close_accounting Nat 2
    [RingBuffer.Op.push 1, RingBuffer.Op.push 2, RingBuffer.Op.shift]
    (RingBuffer.new Nat 0) 7
    (List.replicate 9 (VideoSession.Event.arrive 3)) 5
  exact ⟨h1, h2 (by decide), h3 (by decide), h4⟩

/-! ## Annex-B scanning and AVCC conversion (src/src/demux/ts-demuxer.ts) -/

/-- `data.slice(s, e)` / `data.subarray(s, e)` on a `Uint8Array`. -/
def sliceBytes (data : List Nat) (s e : Nat) : List Nat :=
  (data.drop s).take (e - s)

/-- The scan loop of `findAnnexBStartCode(data, from)` (ts-demuxer.ts
229-236): `for (i = from; i + 3 < len; i++)`, matching `00 00 01` (len 3) or
`00 00 00 01` (len 4).  `fuel` counts the remaining iterations; the wrapper
passes `data.length - i`, which the guard `i + 3 < len` makes sufficient. -/
def findStartCodeGo (data : List Nat) : Nat → Nat → Option (Nat × Nat)
  | _, 0 => none
  | i, fuel + 1 =>
      if i + 3 < data.length then
        if data.getD i 0 = 0 ∧ data.getD (i + 1) 0 = 0 then
          if data.getD (i + 2) 0 = 1 then some (i, 3)
          else if data.getD (i + 2) 0 = 0 ∧ data.getD (i + 3) 0 = 1 then some (i, 4)
          else findStartCodeGo data (i + 1) fuel
        else findStartCodeGo data (i + 1) fuel
      else none

def findAnnexBStartCode (data : List Nat) (i : Nat) : Option (Nat × Nat) :=
  findStartCodeGo data i (data.length - i)

theorem findStartCodeGo_some {data : List Nat} :
    ∀ {i fuel j l}, findStartCodeGo data i fuel = some (j, l) →
      i ≤ j ∧ j + 3 < data.length ∧ (l = 3 ∨ l = 4) := by
  intro i fuel
  induction fuel generalizing i with
  | zero => intro j l h; simp [findStartCodeGo] at h
  | succ fuel ih =>
      intro j l h
      by_cases h3 : i + 3 < data.length
      · simp only [findStartCodeGo, h3, if_true] at h
        by_cases hz : data.getD i 0 = 0 ∧ data.getD (i + 1) 0 = 0
        · simp only [hz, if_true] at h
          by_cases h1 : data.getD (i + 2) 0 = 1
          · simp only [h1, if_true] at h
            obtain ⟨rfl, rfl⟩ := Prod.mk.injEq .. ▸ Option.some.injEq .. ▸ h
            exact ⟨Nat.le_refl _, h3, Or.inl rfl⟩
          · simp only [h1, if_false] at h
            by_cases h4 : data.getD (i + 2) 0 = 0 ∧ data.getD (i + 3) 0 = 1
            · simp only [h4, if_true, Option.some.injEq, Prod.mk.injEq] at h
              obtain ⟨rfl, rfl⟩ := h
              exact ⟨Nat.le_refl _, h3, Or.inr rfl⟩
            · simp only [h4, if_false] at h
              obtain ⟨hle, hlt, hl⟩ := ih h
              exact ⟨by omega, hlt, hl⟩
        · simp only [hz, if_false] at h
          obtain ⟨hle, hlt, hl⟩ := ih h
          exact ⟨by omega, hlt, hl⟩
      · simp [findStartCodeGo, h3] at h

theorem findAnnexBStartCode_some {data : List Nat} {i j l : Nat}
    (h : findAnnexBStartCode data i = some (j, l)) :
    i ≤ j ∧ j + 3 < data.length ∧ (l = 3 ∨ l = 4) :=
  findStartCodeGo_some h

/-- The `while (sc)` loop of `collectAnnexBNalus` (ts-demuxer.ts 243-249):
from the current start code `sc = (index, len)` the next NAL spans from
`sc.index + sc.len` to the next start code (or the end of the buffer), and is
recorded when nonempty.  `fuel` counts loop iterations; the wrapper's
`data.length + 1` is sufficient because each iteration strictly advances
`sc.index + sc.len`, which never exceeds `data.length`. -/
def collectNalusGo (data : List Nat) : Nat → Nat × Nat → List (Nat × Nat)
  | 0, _ => []
  | fuel + 1, sc =>
      let nalStart := sc.1 + sc.2
      match findAnnexBStartCode data nalStart with
      | none => if nalStart < data.length then [(nalStart, data.length)] else []
      | some next =>
          if nalStart < next.1 then (nalStart, next.1) :: collectNalusGo data fuel next
          else collectNalusGo data fuel next

/-- `collectAnnexBNalus` (ts-demuxer.ts 238-251). -/
def collectAnnexBNalus (data : List Nat) : List (Nat × Nat) :=
  match findAnnexBStartCode data 0 with
  | none => []
  | some first => collectNalusGo data (data.length + 1) first

theorem collectNalusGo_bounds {data : List Nat} :
    ∀ {fuel sc p}, p ∈ collectNalusGo data fuel sc → p.1 < p.2 ∧ p.2 ≤ data.length := by
  intro fuel
  induction fuel with
  | zero => intro sc p h; simp [collectNalusGo] at h
  | succ fuel ih =>
      intro sc p h
      simp only [collectNalusGo] at h
      rcases hfind : findAnnexBStartCode data (sc.1 + sc.2) with _ | next
      · rw [hfind] at h
        by_cases hlt : sc.1 + sc.2 < data.length
        · simp only [hlt, if_true, List.mem_singleton] at h
          subst h
          exact ⟨hlt, Nat.le_refl _⟩
        · simp [hlt] at h
      · rw [hfind] at h
        obtain ⟨hge, hlt3, _⟩ := findAnnexBStartCode_some hfind
        by_cases hne : sc.1 + sc.2 < next.1
        · simp only [hne, if_true, List.mem_cons] at h
          rcases h with rfl | h
          · exact ⟨hne, by omega⟩
          · exact ih h
        · simp only [hne, if_false] at h
          exact ih h

theorem collectAnnexBNalus_bounds {data : List Nat} {p : Nat × Nat}
    (h : p ∈ collectAnnexBNalus data) : p.1 < p.2 ∧ p.2 ≤ data.length := by
  unfold collectAnnexBNalus at h
  rcases hfind : findAnnexBStartCode data 0 with _ | first
  · rw [hfind] at h; simp at h
  · rw [hfind] at h
    exact collectNalusGo_bounds h

/-- The 4-byte big-endian length prefix `annexBToAvcc` writes
(ts-demuxer.ts 262-265); `>>>` is modelled as `Nat` shift, exact for
`len < 2^32`. -/
def be32 (len : Nat) : List Nat :=
  [(len >>> 24) &&& 0xff, (len >>> 16) &&& 0xff, (len >>> 8) &&& 0xff, len &&& 0xff]

/-- `annexBToAvcc` (ts-demuxer.ts 253-270): the sequential writes into the
preallocated `out` are the concatenation, NAL by NAL, of the 4-byte length
prefix and the NAL bytes. -/
def annexBToAvcc (data : List Nat) : List Nat :=
  ((collectAnnexBNalus data).map fun n => be32 (n.2 - n.1) ++ sliceBytes data n.1 n.2).flatten

/-- Reading back a 4-byte big-endian field. -/
def readBe32 (bytes : List Nat) : Nat :=
  bytes.getD 0 0 <<< 24 ||| bytes.getD 1 0 <<< 16 ||| bytes.getD 2 0 <<< 8 ||| bytes.getD 3 0

theorem shiftLeft_lor_eq_add {k b : Nat} (a : Nat) (h : b < 2 ^ k) :
    (a <<< k) ||| b = a * 2 ^ k + b := by
  induction k generalizing a b with
  | zero =>
      interval_cases b
      simp [Nat.shiftLeft_eq]
  | succ k ih =>
      have hq : b / 2 < 2 ^ k := by
        rw [Nat.pow_succ] at h
        omega
      have hL2 : ((a <<< (k + 1)) ||| b) / 2 = (a <<< k) ||| b / 2 := by
        rw [Nat.or_div_two]
        congr 1
        rw [Nat.shiftLeft_eq, Nat.shiftLeft_eq, Nat.pow_succ]
        rw [← Nat.mul_assoc, Nat.mul_div_cancel _ (by omega)]
      have hLm : ((a <<< (k + 1)) ||| b) % 2 = b % 2 := by
        rcases Nat.mod_two_eq_zero_or_one b with hb | hb
        · rcases Nat.mod_two_eq_zero_or_one ((a <<< (k + 1)) ||| b) with hx | hx
          · omega
          · have := Nat.or_mod_two_eq_one.mp hx
            rcases this with hc | hc
            · rw [Nat.shiftLeft_eq, Nat.pow_succ, ← Nat.mul_assoc] at hc
              omega
            · omega
        · rw [hb]
          exact Nat.or_mod_two_eq_one.mpr (Or.inr hb)
      have := Nat.div_add_mod ((a <<< (k + 1)) ||| b) 2
      rw [hL2, hLm, ih a hq] at this
      have hb2 := Nat.div_add_mod b 2
      rw [Nat.pow_succ, ← Nat.mul_assoc]
      omega

theorem readBe32_be32 {len : Nat} (h : len < 2 ^ 32) : readBe32 (be32 len) = len := by
  have hmask : ∀ x : Nat, x &&& 0xff = x % 2 ^ 8 := fun x => by
    have := Nat.and_pow_two_sub_one_eq_mod x 8
    norm_num at this ⊢
    exact this
  have hshift : ∀ k : Nat, len >>> k = len / 2 ^ k := fun k => Nat.shiftRight_eq_div_pow len k
  simp only [readBe32, be32, List.getD_cons_zero, List.getD_cons_succ, hmask, hshift]
  have h8 : len % 2 ^ 8 < 2 ^ 8 := Nat.mod_lt _ (by norm_num)
  have h16 : len / 2 ^ 8 % 2 ^ 8 < 2 ^ 8 := Nat.mod_lt _ (by norm_num)
  have h24 : len / 2 ^ 16 % 2 ^ 8 < 2 ^ 8 := Nat.mod_lt _ (by norm_num)
  have e1 : ((len / 2 ^ 8 % 2 ^ 8) <<< 8) ||| (len % 2 ^ 8) =
      (len / 2 ^ 8 % 2 ^ 8) * 2 ^ 8 + len % 2 ^ 8 :=
    shiftLeft_lor_eq_add _ (by omega)
  have e2 : ((len / 2 ^ 16 % 2 ^ 8) <<< 16) |||
        ((len / 2 ^ 8 % 2 ^ 8) * 2 ^ 8 + len % 2 ^ 8) =
      (len / 2 ^ 16 % 2 ^ 8) * 2 ^ 16 +
        ((len / 2 ^ 8 % 2 ^ 8) * 2 ^ 8 + len % 2 ^ 8) :=
    shiftLeft_lor_eq_add _ (by omega)
  have e3 : ((len / 2 ^ 24 % 2 ^ 8) <<< 24) |||
        ((len / 2 ^ 16 % 2 ^ 8) * 2 ^ 16 + ((len / 2 ^ 8 % 2 ^ 8) * 2 ^ 8 + len % 2 ^ 8)) =
      (len / 2 ^ 24 % 2 ^ 8) * 2 ^ 24 +
        ((len / 2 ^ 16 % 2 ^ 8) * 2 ^ 16 + ((len / 2 ^ 8 % 2 ^ 8) * 2 ^ 8 + len % 2 ^ 8)) :=
    shiftLeft_lor_eq_add _ (by omega)
  rw [Nat.or_assoc, Nat.or_assoc, e1, e2, e3]
  omega

/-- C6: Annex-B→AVCC conversion.  (i) the output length is the sum of the NAL
lengths plus 4 per NAL; (ii) each NAL unit written after its length field has
exactly `end - start` bytes; (iii) decoding the 4-byte big-endian length field
yields the byte length of the NAL unit that immediately follows it (the output
being, by construction, the concatenation of `length-field ++ NAL` blocks). -/
theorem annexB_to_avcc_spec (data : List Nat) :
    (annexBToAvcc data).length =
      ((collectAnnexBNalus data).map fun n => n.2 - n.1).sum +
        4 * (collectAnnexBNalus data).length ∧
    (∀ p ∈ collectAnnexBNalus data, (sliceBytes data p.1 p.2).length = p.2 - p.1) ∧
    (data.length < 2 ^ 32 →
      ∀ p ∈ collectAnnexBNalus data,
        readBe32 (be32 (p.2 - p.1)) = (sliceBytes data p.1 p.2).length) := by
  have hbounds : ∀ p ∈ collectAnnexBNalus data, p.1 < p.2 ∧ p.2 ≤ data.length :=
    fun p hp => collectAnnexBNalus_bounds hp
  have hslicelen : ∀ p ∈ collectAnnexBNalus data, (sliceBytes data p.1 p.2).length = p.2 - p.1 := by
    intro p hp
    obtain ⟨h1, h2⟩ := hbounds p hp
    simp only [sliceBytes, List.length_take, List.length_drop]
    omega
  refine ⟨?_, hslicelen, ?_⟩
  · have hgen : ∀ L : List (Nat × Nat), (∀ p ∈ L, p.1 < p.2 ∧ p.2 ≤ data.length) →
        ((L.map fun n => be32 (n.2 - n.1) ++ sliceBytes data n.1 n.2).flatten).length =
          (L.map fun n => n.2 - n.1).sum + 4 * L.length := by
      intro L
      induction L with
      | nil => intro _; simp
      | cons p rest ih =>
          intro hb
          obtain ⟨h1, h2⟩ := hb p (List.mem_cons_self p rest)
          have hlen : (sliceBytes data p.1 p.2).length = p.2 - p.1 := by
            simp only [sliceBytes, List.length_take, List.length_drop]
            omega
          have hrest := ih fun q hq => hb q (List.mem_cons_of_mem p hq)
          simp only [List.map_cons, List.flatten_cons, List.length_append, List.sum_cons,
            List.length_cons, hrest, hlen]
          simp only [be32, List.length_cons, List.length_nil]
          omega
    exact hgen _ hbounds
  · intro h32 p hp
    obtain ⟨h1, h2⟩ := hbounds p hp
    rw [hslicelen p hp]
    exact readBe32_be32 (by omega)

/-- Witness for C6 on a concrete Annex-B buffer with one NAL unit. -/
theorem annexB_to_avcc_spec_witness :
    ((annexBToAvcc [0, 0, 1, 0x65, 0xAA]).length =
      ((collectAnnexBNalus [0, 0, 1, 0x65, 0xAA]).map fun n => n.2 - n.1).sum +
        4 * (collectAnnexBNalus [0, 0, 1, 0x65, 0xAA]).length) ∧
    ((sliceBytes [0, 0, 1, 0x65, 0xAA] (3, 5).1 (3, 5).2).length = (3, 5).2 - (3, 5).1) ∧
    (readBe32 (be32 ((3, 5).2 - (3, 5).1)) =
      (sliceBytes [0, 0, 1, 0x65, 0xAA] (3, 5).1 (3, 5).2).length) := by
  obtain ⟨h1, h2, h3⟩ := annexB_to_avcc_spec [0, 0, 1, 0x65, 0xAA]
  exact ⟨h1, h2 (3, 5) (by decide), h3 (by decide) (3, 5) (by decide)⟩

/-! ## Video chunk look-ahead emission
(src/src/demux/ts-demuxer.ts 888-906 and 1068-1077;
src/unnamed/part_000 `MKVDemuxer.handleBlock` 1387-1402 and 954-963) -/

/-- The one-slot look-ahead state `pendingVideo`: a parsed sample's
timestamp, payload, and keyframe flag. -/
structure VideoSample where
  timestampUs : Int
  data : List Nat
  key : Bool
deriving Repr, DecidableEq

/-- An emitted `EncodedVideoChunk`. -/
structure VideoChunk where
  key : Bool
  timestampUs : Int
  durationUs : Int
  data : List Nat
deriving Repr, DecidableEq

/-- Emitting the pending chunk once the next sample's timestamp is known:
`dur = current.timestampUs - pendingVideo.timestampUs`,
`durationUs = Number.isFinite(dur) && dur > 0 ? dur : 0` (timestamps are
exact integers here, so the finiteness test always passes). -/
def emitWithNext (p : VideoSample) (nextTs : Int) : VideoChunk :=
  let dur := nextTs - p.timestampUs
  { key := p.key
    timestampUs := p.timestampUs
    durationUs := if 0 < dur then dur else 0
    data := p.data }

/-- The end-of-stream flush of `pendingVideo` with `duration: 0`. -/
def flushChunk (p : VideoSample) : VideoChunk :=
  { key := p.key, timestampUs := p.timestampUs, durationUs := 0, data := p.data }

/-- The look-ahead pipeline over the stream of parsed samples: each incoming
sample emits the pending one (with the inter-sample duration) and replaces
it; end of stream flushes the pending sample with duration 0. -/
def videoEmitLoop : Option VideoSample → List VideoSample → List VideoChunk
  | none, [] => []
  | some p, [] => [flushChunk p]
  | none, s :: rest => videoEmitLoop (some s) rest
  | some p, s :: rest => emitWithNext p s.timestampUs :: videoEmitLoop (some s) rest

/-- `isH264KeyframeAnnexB` (ts-demuxer.ts 286-294): any NAL of type 5 (IDR). -/
def isH264KeyframeAnnexB (annexB : List Nat) : Bool :=
  (collectAnnexBNalus annexB).any fun n => annexB.getD n.1 0 &&& 0x1f == 5

/-- The sample the TS extract loop builds from one finalized video PES
(ts-demuxer.ts 889-891). -/
def tsVideoSample (ptsUs : Int) (annexB : List Nat) : VideoSample :=
  { timestampUs := ptsUs, data := annexBToAvcc annexB, key := isH264KeyframeAnnexB annexB }

/-- The chunk sequence produced from a complete sample list (spec §4.5/§8.2's
duration chain), used to reason about `videoEmitLoop`. -/
def chunkChain : List VideoSample → List VideoChunk
  | [] => []
  | [s] => [flushChunk s]
  | s :: s' :: rest => emitWithNext s s'.timestampUs :: chunkChain (s' :: rest)

theorem videoEmitLoop_some (p : VideoSample) (ss : List VideoSample) :
    videoEmitLoop (some p) ss = chunkChain (p :: ss) := by
  induction ss generalizing p with
  | nil => rfl
  | cons s rest ih => rw [videoEmitLoop, ih, chunkChain]

theorem videoEmitLoop_none (ss : List VideoSample) :
    videoEmitLoop none ss = chunkChain ss := by
  cases ss with
  | nil => rfl
  | cons s rest => rw [videoEmitLoop, videoEmitLoop_some]

theorem emitWithNext_durationUs (p : VideoSample) (nextTs : Int) :
    (emitWithNext p nextTs).durationUs = max 0 (nextTs - p.timestampUs) := by
  simp only [emitWithNext]
  omega

def sampleDflt : VideoSample := ⟨0, [], false⟩

def chunkDflt : VideoChunk := ⟨false, 0, 0, []⟩

theorem chunkChain_length (ss : List VideoSample) : (chunkChain ss).length = ss.length := by
  induction ss with
  | nil => rfl
  | cons s rest ih =>
      cases rest with
      | nil => rfl
      | cons s' rest' =>
          simp only [chunkChain, List.length_cons] at ih ⊢
          omega

theorem chunkChain_durations (ss : List VideoSample) :
    ∀ i, i + 1 < ss.length →
      ((chunkChain ss).getD i chunkDflt).durationUs =
        max 0 ((ss.getD (i + 1) sampleDflt).timestampUs - (ss.getD i sampleDflt).timestampUs) := by
  induction ss with
  | nil => intro i h; simp at h
  | cons s rest ih =>
      cases rest with
      | nil => intro i h; simp at h
      | cons s' rest' =>
          intro i h
          cases i with
          | zero =>
              simp only [chunkChain, List.getD_cons_zero, List.getD_cons_succ]
              exact emitWithNext_durationUs s s'.timestampUs
          | succ i' =>
              simp only [chunkChain, List.getD_cons_succ]
              exact ih i' (by simpa using h)

theorem chunkChain_last_duration (ss : List VideoSample) (h : ss ≠ []) :
    ((chunkChain ss).getD (ss.length - 1) chunkDflt).durationUs = 0 := by
  induction ss with
  | nil => exact absurd rfl h
  | cons s rest ih =>
      cases rest with
      | nil => rfl
      | cons s' rest' =>
          have := ih (by simp)
          simp only [chunkChain, List.length_cons] at this ⊢
          simpa using this

/-- C3: over the look-ahead pipeline, every emitted chunk except the last has
`duration_us = max 0 (next.timestamp - this.timestamp)`, the final chunk is
still emitted (one chunk per sample) with `duration_us = 0`, and a stream
with exactly one video sample yields exactly one chunk with duration 0 whose
kind is `key` when the PES carries an IDR NAL. -/
theorem videoChunk_duration_rule (samples : List VideoSample) (ptsUs : Int) (annexB : List Nat) :
    ((videoEmitLoop none samples).length = samples.length) ∧
    (∀ i, i + 1 < samples.length →
      ((videoEmitLoop none samples).getD i chunkDflt).durationUs =
        max 0 ((samples.getD (i + 1) sampleDflt).timestampUs -
          (samples.getD i sampleDflt).timestampUs)) ∧
    (samples ≠ [] →
      ((videoEmitLoop none samples).getD (samples.length - 1) chunkDflt).durationUs = 0) ∧
    (videoEmitLoop none [tsVideoSample ptsUs annexB] =
      [⟨isH264KeyframeAnnexB annexB, ptsUs, 0, annexBToAvcc annexB⟩]) ∧
    (isH264KeyframeAnnexB annexB = true →
      ((videoEmitLoop none [tsVideoSample ptsUs annexB]).getD 0 chunkDflt).key = true) := by
  rw [videoEmitLoop_none]
  refine ⟨chunkChain_length samples, chunkChain_durations samples,
    chunkChain_last_duration samples, rfl, ?_⟩
  intro hkey
  simp [videoEmitLoop, flushChunk, tsVideoSample, hkey]

/-- Witness for C3 on concrete samples, with an IDR-bearing Annex-B payload. -/
theorem videoChunk_duration_rule_witness :
    ((videoEmitLoop none [⟨10, [1], true⟩, ⟨25, [2], false⟩]).length = 2) ∧
    (((videoEmitLoop none [⟨10, [1], true⟩, ⟨25, [2], false⟩]).getD 0 chunkDflt).durationUs =
      max 0 (25 - 10)) ∧
    (((videoEmitLoop none [⟨10, [1], true⟩, ⟨25, [2], false⟩]).getD 1 chunkDflt).durationUs = 0) ∧
    (videoEmitLoop none [tsVideoSample 42 [0, 0, 1, 0x65, 0xAA]] =
      [⟨isH264KeyframeAnnexB [0, 0, 1, 0x65, 0xAA], 42, 0, annexBToAvcc [0, 0, 1, 0x65, 0xAA]⟩]) ∧
    (((videoEmitLoop none [tsVideoSample 42 [0, 0, 1, 0x65, 0xAA]]).getD 0 chunkDflt).key
      = true) := by
  obtain ⟨h1, h2, h3, h4, h5⟩ :=
    videoChunk_duration_rule [⟨10, [1], true⟩, ⟨25, [2], false⟩] 42 [0, 0, 1, 0x65, 0xAA]
  refine ⟨h1, ?_, h3 (by decide), h4, h5 (by decide)⟩
  have := h2 0 (by decide)
  simpa using this

/-! ## PES header parsing (src/src/demux/ts-demuxer.ts 197-227) -/

structure PesHeader where
  pts90k : Option Nat
  headerLen : Nat
deriving Repr, DecidableEq

/-- `parsePesHeader(payload)`: start-code check, header length, and — when
`pts_dts_flags ∈ {2,3}` — the 33-bit PTS from the five bytes at offset 9.
JavaScript's 32-bit `<<` never wraps here (each shifted field stays below
2^31), so plain `Nat` shifts are exact; the top field is multiplied by
`0x40000000` in the source for the same reason. -/
def parsePesHeader (payload : List Nat) : Option PesHeader :=
  if payload.length < 9 then none
  else if payload.getD 0 0 ≠ 0x00 ∨ payload.getD 1 0 ≠ 0x00 ∨ payload.getD 2 0 ≠ 0x01 then none
  else
    let flags := payload.getD 7 0
    let headerDataLen := payload.getD 8 0
    let headerLen := 9 + headerDataLen
    if payload.length < headerLen then none
    else
      let ptsDtsFlags := (flags >>> 6) &&& 0x03
      if ptsDtsFlags = 0x02 ∨ ptsDtsFlags = 0x03 then
        if payload.length < 14 then none
        else
          let b0 := payload.getD 9 0
          let b1 := payload.getD 10 0
          let b2 := payload.getD 11 0
          let b3 := payload.getD 12 0
          let b4 := payload.getD 13 0
          let pts :=
            ((b0 >>> 1) &&& 0x07) * 0x40000000 +
              (b1 <<< 22) +
              (((b2 >>> 1) &&& 0x7f) <<< 15) +
              (b3 <<< 7) +
              ((b4 >>> 1) &&& 0x7f)
          some ⟨some pts, headerLen⟩
      else some ⟨none, headerLen⟩

/-- The claim's PTS formula, written with bitwise ORs exactly as stated:
`((b0>>1)&7)<<30 | b1<<22 | ((b2>>1)&0x7F)<<15 | b3<<7 | ((b4>>1)&0x7F)`. -/
def claimPtsFormula (b0 b1 b2 b3 b4 : Nat) : Nat :=
  ((b0 >>> 1) &&& 0x07) <<< 30 ||| b1 <<< 22 ||| ((b2 >>> 1) &&& 0x7f) <<< 15 |||
    b3 <<< 7 ||| ((b4 >>> 1) &&& 0x7f)

/-- The OR-composed claim formula agrees with the source's sum-composed one:
the five fields occupy disjoint bit ranges. -/
theorem claimPtsFormula_eq_sum (b0 b1 b2 b3 b4 : Nat)
    (h1 : b1 < 256) (h3 : b3 < 256) :
    claimPtsFormula b0 b1 b2 b3 b4 =
      ((b0 >>> 1) &&& 0x07) * 0x40000000 +
        (b1 <<< 22) +
        (((b2 >>> 1) &&& 0x7f) <<< 15) +
        (b3 <<< 7) +
        ((b4 >>> 1) &&& 0x7f) := by
  have hf0 : (b0 >>> 1) &&& 0x07 ≤ 0x07 := Nat.and_le_right
  have hf2 : (b2 >>> 1) &&& 0x7f ≤ 0x7f := Nat.and_le_right
  have hf4 : (b4 >>> 1) &&& 0x7f ≤ 0x7f := Nat.and_le_right
  have hm : ∀ a k : Nat, a <<< k = a * 2 ^ k := fun a k => Nat.shiftLeft_eq a k
  have e1 : (b3 <<< 7) ||| ((b4 >>> 1) &&& 0x7f) = b3 * 2 ^ 7 + ((b4 >>> 1) &&& 0x7f) :=
    shiftLeft_lor_eq_add _ (by omega)
  have e2 : (((b2 >>> 1) &&& 0x7f) <<< 15) ||| (b3 * 2 ^ 7 + ((b4 >>> 1) &&& 0x7f)) =
      ((b2 >>> 1) &&& 0x7f) * 2 ^ 15 + (b3 * 2 ^ 7 + ((b4 >>> 1) &&& 0x7f)) :=
    shiftLeft_lor_eq_add _ (by omega)
  have e3 : (b1 <<< 22) |||
        (((b2 >>> 1) &&& 0x7f) * 2 ^ 15 + (b3 * 2 ^ 7 + ((b4 >>> 1) &&& 0x7f))) =
      b1 * 2 ^ 22 + (((b2 >>> 1) &&& 0x7f) * 2 ^ 15 + (b3 * 2 ^ 7 + ((b4 >>> 1) &&& 0x7f))) :=
    shiftLeft_lor_eq_add _ (by omega)
  have e4 : (((b0 >>> 1) &&& 0x07) <<< 30) |||
        (b1 * 2 ^ 22 + (((b2 >>> 1) &&& 0x7f) * 2 ^ 15 + (b3 * 2 ^ 7 + ((b4 >>> 1) &&& 0x7f)))) =
      ((b0 >>> 1) &&& 0x07) * 2 ^ 30 +
        (b1 * 2 ^ 22 + (((b2 >>> 1) &&& 0x7f) * 2 ^ 15 + (b3 * 2 ^ 7 + ((b4 >>> 1) &&& 0x7f)))) :=
    shiftLeft_lor_eq_add _ (by omega)
  unfold claimPtsFormula
  rw [Nat.or_assoc, Nat.or_assoc, Nat.or_assoc, e1, e2, e3, e4]
  rw [hm b1 22, hm ((b2 >>> 1) &&& 0x7f) 15, hm b3 7]
  omega

/-- C4 (amended): for every PES header with `pts_dts_flags ∈ {2,3}` the
decoded 33-bit PTS equals the claim's OR-composed formula over the five bytes
at offset 9; the vector `21 00 01 00 01` decodes to 0; the vector
`31 00 03 00 03` decodes to 32 769 (not 3 221 258 241 — see the
counterexample), and the vector `37 00 03 00 03` is one that does decode to
3 221 258 241. -/
theorem pesHeader_pts_decode (payload : List Nat)
    (hb : ∀ b ∈ payload, b < 256)
    (hlen : 14 ≤ payload.length)
    (hsc : payload.getD 0 0 = 0x00 ∧ payload.getD 1 0 = 0x00 ∧ payload.getD 2 0 = 0x01)
    (hhdr : 9 + payload.getD 8 0 ≤ payload.length)
    (hflags : (payload.getD 7 0 >>> 6) &&& 0x03 = 0x02 ∨
      (payload.getD 7 0 >>> 6) &&& 0x03 = 0x03) :
    (parsePesHeader payload =
      some ⟨some (claimPtsFormula (payload.getD 9 0) (payload.getD 10 0) (payload.getD 11 0)
        (payload.getD 12 0) (payload.getD 13 0)), 9 + payload.getD 8 0⟩) ∧
    parsePesHeader [0x00, 0x00, 0x01, 0xE0, 0x00, 0x00, 0x80, 0x80, 0x05,
      0x21, 0x00, 0x01, 0x00, 0x01] = some ⟨some 0, 14⟩ ∧
    parsePesHeader [0x00, 0x00, 0x01, 0xE0, 0x00, 0x00, 0x80, 0x80, 0x05,
      0x31, 0x00, 0x03, 0x00, 0x03] = some ⟨some 32769, 14⟩ ∧
    parsePesHeader [0x00, 0x00, 0x01, 0xE0, 0x00, 0x00, 0x80, 0x80, 0x05,
      0x37, 0x00, 0x03, 0x00, 0x03] = some ⟨some 3221258241, 14⟩ := by
  refine ⟨?_, by decide, by decide, by decide⟩
  have hbyte : ∀ i, i < payload.length → payload.getD i 0 < 256 := by
    intro i hi
    have hg : payload.getD i 0 = payload[i] := by
      simp [List.getD_eq_getElem?_getD, List.getElem?_eq_getElem hi]
    rw [hg]
    exact hb _ (List.getElem_mem hi)
  have h9 : ¬ payload.length < 9 := by omega
  have h14 : ¬ payload.length < 14 := by omega
  have hhl : ¬ payload.length < 9 + payload.getD 8 0 := by omega
  simp only [parsePesHeader, h9, hsc.1, hsc.2.1, hsc.2.2, hhl, hflags, h14, if_false, ite_false,
    ite_true, if_true, ne_eq, not_true_eq_false, or_self, or_false, false_or, not_false_eq_true,
    if_neg, Option.some.injEq]
  rw [claimPtsFormula_eq_sum _ _ _ _ _ (hbyte 10 (by omega)) (hbyte 12 (by omega))]

/-- C4 counterexample: the claimed vector `0x31 00 03 00 03` decodes to
32 769, not 3 221 258 241 — `(0x31 >> 1) & 7 = 0`, so the 2^30 term vanishes
under the claim's own formula and under the source's decoder. -/
theorem pesHeader_vector_refuted :
    parsePesHeader [0x00, 0x00, 0x01, 0xE0, 0x00, 0x00, 0x80, 0x80, 0x05,
      0x31, 0x00, 0x03, 0x00, 0x03] = some ⟨some 32769, 14⟩ ∧
    claimPtsFormula 0x31 0x00 0x03 0x00 0x03 = 32769 ∧
    (32769 : Nat) ≠ 3221258241 := by
  refine ⟨by decide, by decide, by decide⟩

/-- Witness for C4 at the spec's first concrete vector. -/
theorem pesHeader_pts_decode_witness :
    parsePesHeader [0x00, 0x00, 0x01, 0xE0, 0x00, 0x00, 0x80, 0x80, 0x05,
      0x21, 0x00, 0x01, 0x00, 0x01] =
      some ⟨some (claimPtsFormula 0x21 0x00 0x01 0x00 0x01), 9 + 0x05⟩ := by
  have h := (pesHeader_pts_decode
    [0x00, 0x00, 0x01, 0xE0, 0x00, 0x00, 0x80, 0x80, 0x05, 0x21, 0x00, 0x01, 0x00, 0x01]
    (by decide) (by decide) (by decide) (by decide) (by decide)).1
  simpa using h

/-! ## ADTS framing and the audio extraction loop
(src/src/demux/ts-demuxer.ts 333-354 and 938-958) -/

def AAC_SAMPLE_RATES : List Nat :=
  [96000, 88200, 64000, 48000, 44100, 32000, 24000, 22050, 16000, 12000, 11025, 8000, 7350]

structure AdtsInfo where
  headerLen : Nat
  frameLen : Nat
  sampleRate : Nat
  channelCount : Nat
  audioObjectType : Nat
  samplingIndex : Nat
deriving Repr, DecidableEq

/-- `parseAdtsHeader(data, offset)` (ts-demuxer.ts 333-354). -/
def parseAdtsHeader (data : List Nat) (offset : Nat) : Option AdtsInfo :=
  if data.length < offset + 7 then none
  else if data.getD offset 0 ≠ 0xff ∨ data.getD (offset + 1) 0 &&& 0xf0 ≠ 0xf0 then none
  else
    let protectionAbsent := data.getD (offset + 1) 0 &&& 0x01 ≠ 0
    let profile := (data.getD (offset + 2) 0 >>> 6) &&& 0x03
    let samplingIndex := (data.getD (offset + 2) 0 >>> 2) &&& 0x0f
    let sampleRate := AAC_SAMPLE_RATES.getD samplingIndex 0
    let channelConfig :=
      ((data.getD (offset + 2) 0 &&& 0x01) <<< 2) ||| ((data.getD (offset + 3) 0 >>> 6) &&& 0x03)
    let frameLen :=
      ((data.getD (offset + 3) 0 &&& 0x03) <<< 11) ||| (data.getD (offset + 4) 0 <<< 3) |||
        ((data.getD (offset + 5) 0 >>> 5) &&& 0x07)
    let headerLen := if protectionAbsent then 7 else 9
    let audioObjectType := profile + 1
    if sampleRate ≤ 0 ∨ channelConfig ≤ 0 ∨ frameLen < headerLen then none
    else some ⟨headerLen, frameLen, sampleRate, channelConfig, audioObjectType, samplingIndex⟩

theorem parseAdtsHeader_some_facts {data : List Nat} {offset : Nat} {info : AdtsInfo}
    (h : parseAdtsHeader data offset = some info) :
    offset + 7 ≤ data.length ∧ (info.headerLen = 7 ∨ info.headerLen = 9) ∧
    info.headerLen ≤ info.frameLen := by
  simp only [parseAdtsHeader] at h
  split_ifs at h with h1 h2 hpa hf7 hf9
  · obtain rfl := Option.some.inj h
    push_neg at hf7
    exact ⟨by omega, Or.inl rfl, hf7.2.2⟩
  · obtain rfl := Option.some.inj h
    push_neg at hf9
    exact ⟨by omega, Or.inr rfl, hf9.2.2⟩

/-- `Math.round(samplesPerFrame * 1e6 / sampleRate)` (ts-demuxer.ts 803):
round-half-up of a nonnegative quotient. -/
def jsRoundNatDiv (num den : Nat) : Nat := (2 * num + den) / (2 * den)

def audioFrameDurUs (samplesPerFrame sampleRate : Nat) : Nat :=
  jsRoundNatDiv (samplesPerFrame * 1000000) sampleRate

/-- Lines 909-910: initialise `audioNextTimestampUs` from the first PES PTS,
and resync it whenever `Math.abs(ptsUs - audioNextTimestampUs) > 500_000`. -/
def audioResyncStep (audioNext : Option Int) (ptsUs : Int) : Int :=
  match audioNext with
  | none => ptsUs
  | some t => if 500000 < |ptsUs - t| then ptsUs else t

/-- The AAC branch of the audio framing loop (ts-demuxer.ts 939-957): starting
at `pos` with running timestamp `ts`, skip bytes until a valid ADTS header,
stop when the frame would run past the buffer, otherwise emit the frame bytes
*between* header end and frame end (`combined.subarray(pos + headerLen,
pos + frameLen)`) stamped with `ts`, advance `ts` by `dur` and `pos` by
`frameLen`.  Returns the emitted `(timestamp, bytes)` list and the final
`pos` (the remainder is `combined.slice(pos)`).  `fuel` bounds the iteration
count; the wrapper's `combined.length + 1` is sufficient since `pos` strictly
increases. -/
def adtsExtractGo (combined : List Nat) (dur : Int) :
    Nat → Nat → Int → List (Int × List Nat) × Nat
  | 0, pos, _ => ([], pos)
  | fuel + 1, pos, ts =>
      if pos + 7 ≤ combined.length then
        match parseAdtsHeader combined pos with
        | none => adtsExtractGo combined dur fuel (pos + 1) ts
        | some info =>
            if combined.length < pos + info.frameLen then ([], pos)
            else
              let frame := sliceBytes combined (pos + info.headerLen) (pos + info.frameLen)
              let r := adtsExtractGo combined dur fuel (pos + info.frameLen) (ts + dur)
              ((ts, frame) :: r.1, r.2)
      else ([], pos)

def adtsExtract (combined : List Nat) (dur : Int) (ts : Int) : List (Int × List Nat) × Nat :=
  adtsExtractGo combined dur (combined.length + 1) 0 ts

/-- A byte string that is one well-formed ADTS frame: its header parses and
its declared `frameLen` is exactly its length. -/
def ValidAdtsFrame (f : List Nat) : Prop :=
  ∃ info : AdtsInfo, parseAdtsHeader f 0 = some info ∧ info.frameLen = f.length

/-- The header length a frame declares (0 when unparseable). -/
def adtsHeaderLenOf (f : List Nat) : Nat :=
  match parseAdtsHeader f 0 with
  | some info => info.headerLen
  | none => 0

theorem parseAdtsHeader_shift (a b : List Nat) (pos : Nat) :
    parseAdtsHeader (a ++ b) (a.length + pos) = parseAdtsHeader b pos := by
  have hget : ∀ k, (a ++ b).getD (a.length + pos + k) 0 = b.getD (pos + k) 0 := by
    intro k
    rw [List.getD_append_right _ _ _ _ (by omega)]
    congr 1
    omega
  have hget0 : (a ++ b).getD (a.length + pos) 0 = b.getD pos 0 := by
    rw [List.getD_append_right _ _ _ _ (by omega)]
    congr 1
    omega
  by_cases h7 : b.length < pos + 7
  · have h7' : (a ++ b).length < a.length + pos + 7 := by
      rw [List.length_append]; omega
    simp only [parseAdtsHeader, if_pos h7, if_pos h7']
  · have h7' : ¬ (a ++ b).length < a.length + pos + 7 := by
      rw [List.length_append]; omega
    simp only [parseAdtsHeader, if_neg h7, if_neg h7']
    rw [hget0, hget 1, hget 2, hget 3, hget 4, hget 5]

theorem parseAdtsHeader_prefix (f rest : List Nat) (h7 : 7 ≤ f.length) :
    parseAdtsHeader (f ++ rest) 0 = parseAdtsHeader f 0 := by
  have hget : ∀ k, k < 7 → (f ++ rest).getD (0 + k) 0 = f.getD (0 + k) 0 := by
    intro k hk
    exact List.getD_append _ _ _ _ (by omega)
  have hget0 : (f ++ rest).getD 0 0 = f.getD 0 0 := List.getD_append _ _ _ _ (by omega)
  have hlen1 : ¬ (f ++ rest).length < 0 + 7 := by rw [List.length_append]; omega
  have hlen2 : ¬ f.length < 0 + 7 := by omega
  simp only [parseAdtsHeader, if_neg hlen1, if_neg hlen2]
  rw [hget0, hget 1 (by omega), hget 2 (by omega), hget 3 (by omega), hget 4 (by omega),
    hget 5 (by omega)]

theorem sliceBytes_shift (a b : List Nat) (s e : Nat) :
    sliceBytes (a ++ b) (a.length + s) (a.length + e) = sliceBytes b s e := by
  unfold sliceBytes
  rw [← List.drop_drop, List.drop_left]
  congr 1
  omega

theorem sliceBytes_prefix (f rest : List Nat) (s : Nat) (hs : s ≤ f.length) :
    sliceBytes (f ++ rest) s f.length = f.drop s := by
  unfold sliceBytes
  rw [List.drop_append_of_le_length hs]
  rw [List.take_left' (by rw [List.length_drop])]

theorem adtsExtractGo_shift (a b : List Nat) (dur : Int) :
    ∀ fuel pos ts,
      adtsExtractGo (a ++ b) dur fuel (a.length + pos) ts =
        ((adtsExtractGo b dur fuel pos ts).1, a.length + (adtsExtractGo b dur fuel pos ts).2) := by
  intro fuel
  induction fuel with
  | zero => intro pos ts; simp [adtsExtractGo]
  | succ fuel ih =>
      intro pos ts
      by_cases h7 : pos + 7 ≤ b.length
      · have h7' : a.length + pos + 7 ≤ (a ++ b).length := by
          rw [List.length_append]; omega
        simp only [adtsExtractGo, if_pos h7, if_pos h7', parseAdtsHeader_shift]
        cases hp : parseAdtsHeader b pos with
        | none =>
            have := ih (pos + 1) ts
            rw [← Nat.add_assoc] at this
            exact this
        | some info =>
            by_cases hbrk : b.length < pos + info.frameLen
            · have hbrk' : (a ++ b).length < a.length + pos + info.frameLen := by
                rw [List.length_append]; omega
              simp only [if_pos hbrk, if_pos hbrk']
            · have hbrk' : ¬ (a ++ b).length < a.length + pos + info.frameLen := by
                rw [List.length_append]; omega
              simp only [if_neg hbrk, if_neg hbrk']
              have hslice := sliceBytes_shift a b (pos + info.headerLen) (pos + info.frameLen)
              rw [← Nat.add_assoc, ← Nat.add_assoc] at hslice
              have hrec := ih (pos + info.frameLen) (ts + dur)
              rw [← Nat.add_assoc] at hrec
              rw [hslice, hrec]
      · have h7' : ¬ a.length + pos + 7 ≤ (a ++ b).length := by
          rw [List.length_append]; omega
        simp only [adtsExtractGo, if_neg h7, if_neg h7']

/-- The expected output on a well-formed ADTS stream: one `(timestamp,
header-stripped payload)` pair per frame, timestamps advancing by `dur`. -/
def stampedPayloads (dur : Int) : List (List Nat) → Int → List (Int × List Nat)
  | [], _ => []
  | f :: rest, ts => (ts, f.drop (adtsHeaderLenOf f)) :: stampedPayloads dur rest (ts + dur)

theorem adtsExtractGo_valid_stream (dur : Int) :
    ∀ (frames : List (List Nat)) (fuel : Nat) (ts : Int),
      (∀ f ∈ frames, ValidAdtsFrame f) →
      frames.flatten.length < fuel →
      adtsExtractGo frames.flatten dur fuel 0 ts =
        (stampedPayloads dur frames ts, frames.flatten.length) := by
  intro frames
  induction frames with
  | nil =>
      intro fuel ts hv hf
      cases fuel with
      | zero => simp at hf
      | succ fuel => simp [adtsExtractGo, stampedPayloads]
  | cons f rest ih =>
      intro fuel ts hv hf
      obtain ⟨info, hparse, hflen⟩ := hv f (List.mem_cons_self f rest)
      obtain ⟨h7raw, hhl79, hhlle⟩ := parseAdtsHeader_some_facts hparse
      have hf7 : 7 ≤ f.length := by omega
      have hlenflat : (f :: rest).flatten.length = f.length + rest.flatten.length := by
        rw [List.flatten_cons, List.length_append]
      cases fuel with
      | zero => omega
      | succ fuel =>
          have hcond : (0 : Nat) + 7 ≤ ((f :: rest).flatten).length := by omega
          have hparse' : parseAdtsHeader ((f :: rest).flatten) (0 : Nat) = some info := by
            rw [List.flatten_cons, parseAdtsHeader_prefix f rest.flatten hf7]
            exact hparse
          have hnobrk : ¬ ((f :: rest).flatten).length < 0 + info.frameLen := by omega
          simp only [adtsExtractGo, if_pos hcond, hparse', if_neg hnobrk]
          have hslice : sliceBytes ((f :: rest).flatten) (0 + info.headerLen)
              (0 + info.frameLen) = f.drop (adtsHeaderLenOf f) := by
            rw [List.flatten_cons, Nat.zero_add, Nat.zero_add, hflen,
              sliceBytes_prefix f rest.flatten info.headerLen (by omega)]
            unfold adtsHeaderLenOf
            rw [hparse]
          have hrec : adtsExtractGo ((f :: rest).flatten) dur fuel (0 + info.frameLen) (ts + dur) =
              (stampedPayloads dur rest (ts + dur), f.length + rest.flatten.length) := by
            rw [List.flatten_cons, Nat.zero_add, hflen]
            have hshift := adtsExtractGo_shift f rest.flatten dur fuel 0 (ts + dur)
            rw [Nat.add_zero] at hshift
            rw [hshift, ih fuel (ts + dur) (fun g hg => hv g (List.mem_cons_of_mem f hg))
              (by omega)]
          rw [hslice, hrec, stampedPayloads, hlenflat]

theorem stampedPayloads_map_snd (dur : Int) :
    ∀ (frames : List (List Nat)) (ts : Int),
      (stampedPayloads dur frames ts).map Prod.snd =
        frames.map fun f => f.drop (adtsHeaderLenOf f) := by
  intro frames
  induction frames with
  | nil => intro ts; rfl
  | cons f rest ih =>
      intro ts
      simp only [stampedPayloads, List.map_cons, ih]

/-- C7 (amended): feeding a well-formed ADTS stream to the audio framing loop
emits exactly one chunk per frame, each chunk's bytes being the frame minus
its ADTS header (`combined.subarray(pos + headerLen, pos + frameLen)`), so
the concatenation of emitted frame bytes equals the original bytes with each
frame's header removed; the loop consumes the whole input, leaving an empty
remainder.  The claim's stated identity — emitted concatenation equals the
original bytes — fails because the headers are stripped (see the
counterexample). -/
theorem adts_framing_roundtrip (frames : List (List Nat)) (dur ts : Int)
    (hv : ∀ f ∈ frames, ValidAdtsFrame f) :
    (adtsExtract frames.flatten dur ts).1 = stampedPayloads dur frames ts ∧
    ((adtsExtract frames.flatten dur ts).1.map Prod.snd).flatten =
      (frames.map fun f => f.drop (adtsHeaderLenOf f)).flatten ∧
    (adtsExtract frames.flatten dur ts).2 = frames.flatten.length ∧
    frames.flatten.drop (adtsExtract frames.flatten dur ts).2 = [] := by
  have h := adtsExtractGo_valid_stream dur frames (frames.flatten.length + 1) ts hv (by omega)
  unfold adtsExtract
  rw [h]
  exact ⟨rfl, by rw [stampedPayloads_map_snd], rfl, by simp⟩

/-- C7 counterexample: one well-formed 8-byte ADTS frame (7-byte header, one
payload byte `0xAB`); the loop emits only `[0xAB]`, not the original 8
bytes. -/
theorem adts_roundtrip_refuted :
    ValidAdtsFrame [0xFF, 0xF1, 0x50, 0x80, 0x01, 0x00, 0x00, 0xAB] ∧
    ((adtsExtract [0xFF, 0xF1, 0x50, 0x80, 0x01, 0x00, 0x00, 0xAB] 23 0).1.map
        Prod.snd).flatten = [0xAB] ∧
    ([0xAB] : List Nat) ≠ [0xFF, 0xF1, 0x50, 0x80, 0x01, 0x00, 0x00, 0xAB] := by
  refine ⟨⟨⟨7, 8, 44100, 2, 2, 4⟩, by decide, by decide⟩, by decide, by decide⟩

/-- Witness for C7 on the same concrete frame. -/
theorem adts_framing_roundtrip_witness :
    ((adtsExtract [[0xFF, 0xF1, 0x50, 0x80, 0x01, 0x00, 0x00, 0xAB]].flatten 23 0).1.map
        Prod.snd).flatten =
      ([[0xFF, 0xF1, 0x50, 0x80, 0x01, 0x00, 0x00, 0xAB]].map fun f =>
        f.drop (adtsHeaderLenOf f)).flatten ∧
    (adtsExtract [[0xFF, 0xF1, 0x50, 0x80, 0x01, 0x00, 0x00, 0xAB]].flatten 23 0).2 =
      [[0xFF, 0xF1, 0x50, 0x80, 0x01, 0x00, 0x00, 0xAB]].flatten.length := by
  obtain ⟨h1, h2, h3, h4⟩ :=
    adts_framing_roundtrip [[0xFF, 0xF1, 0x50, 0x80, 0x01, 0x00, 0x00, 0xAB]] 23 0
      (by
        intro f hf
        rw [List.mem_singleton] at hf
        subst hf
        exact ⟨⟨7, 8, 44100, 2, 2, 4⟩, by decide, by decide⟩)
  exact ⟨h2, h3⟩

theorem adtsExtractGo_timestamps (combined : List Nat) (dur : Int) :
    ∀ fuel pos ts i, i < (adtsExtractGo combined dur fuel pos ts).1.length →
      ((adtsExtractGo combined dur fuel pos ts).1.getD i (0, [])).1 = ts + (i : Int) * dur := by
  intro fuel
  induction fuel with
  | zero => intro pos ts i hi; simp [adtsExtractGo] at hi
  | succ fuel ih =>
      intro pos ts i hi
      by_cases h7 : pos + 7 ≤ combined.length
      · rcases hp : parseAdtsHeader combined pos with _ | info
        · simp only [adtsExtractGo, if_pos h7, hp] at hi ⊢
          exact ih (pos + 1) ts i hi
        · by_cases hbrk : combined.length < pos + info.frameLen
          · simp only [adtsExtractGo, if_pos h7, hp, if_pos hbrk] at hi
            simp at hi
          · simp only [adtsExtractGo, if_pos h7, hp, if_neg hbrk] at hi ⊢
            cases i with
            | zero => simp
            | succ i' =>
                simp only [List.length_cons, List.getD_cons_succ] at hi ⊢
                have := ih (pos + info.frameLen) (ts + dur) i' (by omega)
                rw [this]
                push_cast
                ring
      · simp only [adtsExtractGo, if_neg h7] at hi
        simp at hi

/-- C8 (amended): `audio_next_ts` is initialised from the first PES PTS and
reset to the PES PTS exactly when the drift is *strictly greater* than
500 000 µs (at exactly 500 000 µs it keeps counting — see the
counterexample); otherwise it is kept, and each emitted frame advances it by
`round(samples_per_frame · 1e6 / sample_rate)` µs, so the i-th frame emitted
from one buffer is stamped `ts + i · dur`. -/
theorem audio_timestamp_resync (t ptsUs : Int) (spf rate : Nat)
    (combined : List Nat) (fuel pos : Nat) (ts : Int) :
    (audioResyncStep none ptsUs = ptsUs) ∧
    (500000 < |ptsUs - t| → audioResyncStep (some t) ptsUs = ptsUs) ∧
    (|ptsUs - t| ≤ 500000 → audioResyncStep (some t) ptsUs = t) ∧
    (audioFrameDurUs spf rate = (2 * (spf * 1000000) + rate) / (2 * rate)) ∧
    (∀ i, i < (adtsExtractGo combined ((audioFrameDurUs spf rate : Nat) : Int)
          fuel pos ts).1.length →
      ((adtsExtractGo combined ((audioFrameDurUs spf rate : Nat) : Int)
          fuel pos ts).1.getD i (0, [])).1 =
        ts + (i : Int) * ((audioFrameDurUs spf rate : Nat) : Int)) := by
  refine ⟨rfl, ?_, ?_, rfl, adtsExtractGo_timestamps combined _ fuel pos ts⟩
  · intro h
    simp [audioResyncStep, h]
  · intro h
    have : ¬ (500000 : Int) < |ptsUs - t| := by omega
    simp [audioResyncStep, this]

/-- C8 counterexample: at a drift of exactly 500 000 µs the source keeps the
running timestamp, while the claim requires a reset. -/
theorem audio_resync_boundary_refuted :
    (500000 : Int) ≤ |(500000 : Int) - 0| ∧
    audioResyncStep (some 0) 500000 = 0 ∧
    (0 : Int) ≠ 500000 := by
  refine ⟨by decide, by decide, by decide⟩

/-- Witness for C8 at concrete drifts and one concrete ADTS buffer. -/
theorem audio_timestamp_resync_witness :
    (audioResyncStep none 7 = 7) ∧
    (audioResyncStep (some 0) 600000 = 600000) ∧
    (audioResyncStep (some 0) 500000 = 0) ∧
    (audioFrameDurUs 1024 44100 = (2 * (1024 * 1000000) + 44100) / (2 * 44100)) ∧
    (((adtsExtractGo [0xFF, 0xF1, 0x50, 0x80, 0x01, 0x00, 0x00, 0xAB]
        ((audioFrameDurUs 1024 44100 : Nat) : Int) 9 0 5).1.getD 0 (0, [])).1 =
      5 + (0 : Int) * ((audioFrameDurUs 1024 44100 : Nat) : Int)) := by
  obtain ⟨h1, h2, h3, h4, h5⟩ :=
    audio_timestamp_resync 0 600000 1024 44100
      [0xFF, 0xF1, 0x50, 0x80, 0x01, 0x00, 0x00, 0xAB] 9 0 5
  refine ⟨rfl, h2 (by decide), ?_, h4, h5 0 (by decide)⟩
  obtain ⟨g1, g2, g3, g4, g5⟩ :=
    audio_timestamp_resync 0 500000 1024 44100
      [0xFF, 0xF1, 0x50, 0x80, 0x01, 0x00, 0x00, 0xAB] 9 0 5
  exact g3 (by decide)

/-! ## Video pump gating (src/src/core/player.ts 1687-1702,
`WebPlayer.pumpWebCodecsDecoder`) -/

/-- The submit loop of `pumpWebCodecsDecoder`: with `maxDecodeQueue = 4` and
`maxFramesBuffered = frameQueue.capacity - 2`, it shifts and submits chunks
while `encodedQueue.length > 0 && decoder.decodeQueueSize < 4 &&
frameQueue.length < capacity - 2`.  Each `decoder.decode(chunk)` increments
`decodeQueueSize`; the frame-ring length does not change inside the loop.
Returns (submitted chunks, final decodeQueueSize, remaining queue). -/
def pumpVideo (queue : List Nat) (decodeQueueSize frameLen capacity : Nat) :
    List Nat × Nat × List Nat :=
  match queue with
  | [] => ([], decodeQueueSize, [])
  | c :: rest =>
      if decodeQueueSize < 4 ∧ frameLen < capacity - 2 then
        let r := pumpVideo rest (decodeQueueSize + 1) frameLen capacity
        (c :: r.1, r.2.1, r.2.2)
      else ([], decodeQueueSize, c :: rest)

/-- C9 (amended): `pump_video` submits exactly while the queue is non-empty,
the pending decode count is *strictly below* 4, and the frame-ring length is
*strictly below* capacity − 2: the number of chunks submitted is
`min queue.length (4 - dqs)` when `frameLen < capacity - 2` and 0 otherwise;
submission preserves order and increments the pending count per chunk; and
when chunks remain unsubmitted, one of the strict conditions has failed. -/
theorem pump_video_gating (queue : List Nat) (dqs frameLen capacity : Nat) :
    ((pumpVideo queue dqs frameLen capacity).1.length =
      if frameLen < capacity - 2 then min queue.length (4 - dqs) else 0) ∧
    ((pumpVideo queue dqs frameLen capacity).1 ++
        (pumpVideo queue dqs frameLen capacity).2.2 = queue) ∧
    ((pumpVideo queue dqs frameLen capacity).2.1 =
      dqs + (pumpVideo queue dqs frameLen capacity).1.length) ∧
    ((pumpVideo queue dqs frameLen capacity).2.2 ≠ [] →
      ¬((pumpVideo queue dqs frameLen capacity).2.1 < 4 ∧ frameLen < capacity - 2)) := by
  induction queue generalizing dqs with
  | nil =>
      refine ⟨?_, rfl, rfl, fun h => absurd rfl h⟩
      simp [pumpVideo]
  | cons c rest ih =>
      by_cases hc : dqs < 4 ∧ frameLen < capacity - 2
      · obtain ⟨ih1, ih2, ih3, ih4⟩ := ih (dqs + 1)
        refine ⟨?_, ?_, ?_, ?_⟩
        · simp only [pumpVideo, if_pos hc, List.length_cons, ih1, if_pos hc.2]
          omega
        · simp only [pumpVideo, if_pos hc, List.cons_append, ih2]
        · simp only [pumpVideo, if_pos hc, List.length_cons, ih3]
          omega
        · simp only [pumpVideo, if_pos hc]
          exact ih4
      · refine ⟨?_, ?_, ?_, ?_⟩
        · simp only [pumpVideo, if_neg hc, List.length_nil]
          by_cases hf : frameLen < capacity - 2
          · rw [if_pos hf]
            have : ¬ dqs < 4 := fun hd => hc ⟨hd, hf⟩
            omega
          · rw [if_neg hf]
        · simp [pumpVideo, if_neg hc]
        · simp [pumpVideo, if_neg hc]
        · simp only [pumpVideo, if_neg hc]
          intro _
          exact hc

/-- C9 counterexample: with a non-empty queue, pending decode count exactly 4
and an empty frame ring, the claim's gating conditions (pending ≤ 4 and
ring ≤ capacity − 2) hold, yet the loop submits nothing — the source gates on
`decodeQueueSize < 4`, not `≤ 4`. -/
theorem pump_video_gating_refuted :
    ([5] ≠ ([] : List Nat) ∧ 4 ≤ 4 ∧ 0 ≤ 8 - 2) ∧
    (pumpVideo [5] 4 0 8).1 = [] := by
  refine ⟨⟨by decide, by decide, by decide⟩, by decide⟩

/-- Witness for C9 on a concrete pump state. -/
theorem pump_video_gating_witness :
    ((pumpVideo [1, 2, 3, 4, 5, 6] 1 0 8).1.length =
      if 0 < 8 - 2 then min [1, 2, 3, 4, 5, 6].length (4 - 1) else 0) ∧
    ((pumpVideo [1, 2, 3, 4, 5, 6] 1 0 8).1 ++ (pumpVideo [1, 2, 3, 4, 5, 6] 1 0 8).2.2 =
      [1, 2, 3, 4, 5, 6]) ∧
    ((pumpVideo [1, 2, 3, 4, 5, 6] 1 0 8).2.1 =
      1 + (pumpVideo [1, 2, 3, 4, 5, 6] 1 0 8).1.length) ∧
    ¬((pumpVideo [1, 2, 3, 4, 5, 6] 1 0 8).2.1 < 4 ∧ 0 < 8 - 2) := by
  obtain ⟨h1, h2, h3, h4⟩ := pump_video_gating [1, 2, 3, 4, 5, 6] 1 0 8
  exact ⟨h1, h2, h3, h4 (by decide)⟩

/-! ## TS packet stride / sync-offset probing
(src/src/demux/ts-demuxer.ts 57-86, `detectTsPacketStrideAndSyncOffset`) -/

def TS_STRIDE_CANDIDATES : List Nat := [188, 192, 204]

/-- The inner 5-packet scan (ts-demuxer.ts 64-73): from `idx` with running
count `acc`, stop with the running count at the buffer end, return −1 on a
sync-byte mismatch, count the packet otherwise.  `remaining` is
`maxCheckPackets - i`; the entry point passes 5. -/
def okCountGo (data : List Nat) (stride : Nat) : Nat → Nat → Int → Int
  | 0, _, acc => acc
  | remaining + 1, idx, acc =>
      if data.length ≤ idx then acc
      else if data.getD idx 0 ≠ 0x47 then -1
      else okCountGo data stride remaining (idx + stride) (acc + 1)

def okCount (data : List Nat) (stride syncOffset : Nat) : Int :=
  okCountGo data stride 5 syncOffset 0

/-- `maxOffset = Math.min(stride, Math.max(0, data.length - stride * 5))`
(ts-demuxer.ts 62); `Nat` subtraction is the clamped `max(0, ·)`. -/
def maxOffset (data : List Nat) (stride : Nat) : Nat :=
  min stride (data.length - stride * 5)

structure BestCandidate where
  stride : Nat
  syncOffset : Nat
  okCount : Int
deriving Repr, DecidableEq

/-- The candidate comparison (ts-demuxer.ts 74-82): skip non-positive counts;
replace the best on a higher count, or on an equal count with a smaller
stride. -/
def updateBest (best : Option BestCandidate) (stride syncOffset : Nat) (ok : Int) :
    Option BestCandidate :=
  if ok ≤ 0 then best
  else
    match best with
    | none => some ⟨stride, syncOffset, ok⟩
    | some b =>
        if b.okCount < ok ∨ (ok = b.okCount ∧ stride < b.stride) then
          some ⟨stride, syncOffset, ok⟩
        else best

/-- The `syncOffset` loop for one stride (ts-demuxer.ts 63-83): `remaining`
counts the offsets left to try, starting at `off` (the entry point passes
`maxOffset` and 0). -/
def scanOffsets (data : List Nat) (stride : Nat) : Nat → Nat → Option BestCandidate →
    Option BestCandidate
  | 0, _, best => best
  | remaining + 1, off, best =>
      scanOffsets data stride remaining (off + 1)
        (updateBest best stride off (okCount data stride off))

def detectTsPacketStrideAndSyncOffset (data : List Nat) : Option (Nat × Nat) :=
  (TS_STRIDE_CANDIDATES.foldl
      (fun best stride => scanOffsets data stride (maxOffset data stride) 0 best) none).map
    fun b => (b.stride, b.syncOffset)

/-- The spec's notion of a matching candidate: five consecutive packets with
a valid sync byte. -/
def SyncMatch (data : List Nat) (stride off : Nat) : Prop :=
  ∀ i, i < 5 → data.getD (off + i * stride) 0 = 0x47

instance (data : List Nat) (stride off : Nat) : Decidable (SyncMatch data stride off) := by
  unfold SyncMatch
  infer_instance

theorem okCountGo_le (data : List Nat) (stride : Nat) :
    ∀ r idx acc, 0 ≤ acc → okCountGo data stride r idx acc ≤ acc + r := by
  intro r
  induction r with
  | zero => intro idx acc _; simp [okCountGo]
  | succ r ih =>
      intro idx acc hacc
      simp only [okCountGo]
      split_ifs with h1 h2
      · omega
      · omega
      · have := ih (idx + stride) (acc + 1) (by omega)
        omega

theorem okCountGo_spec (data : List Nat) (stride : Nat) (hs : 0 < stride) :
    ∀ r idx acc, idx + r * stride ≤ data.length →
      okCountGo data stride r idx acc =
        if ∀ i, i < r → data.getD (idx + i * stride) 0 = 0x47 then acc + r else -1 := by
  intro r
  induction r with
  | zero =>
      intro idx acc _
      simp [okCountGo]
  | succ r ih =>
      intro idx acc hb
      have hidx : idx < data.length := by
        have : idx + stride ≤ idx + (r + 1) * stride := by
          have : stride ≤ (r + 1) * stride := Nat.le_mul_of_pos_left _ (by omega)
          omega
        omega
      have hnb : ¬ data.length ≤ idx := by omega
      simp only [okCountGo, if_neg hnb]
      by_cases h0 : data.getD idx 0 = 0x47
      · have hne : ¬ data.getD idx 0 ≠ 0x47 := by simpa using h0
        rw [if_neg (by simpa using h0)]
        have hb' : idx + stride + r * stride ≤ data.length := by
          have : idx + (r + 1) * stride = idx + stride + r * stride := by ring
          omega
        rw [ih (idx + stride) (acc + 1) hb']
        by_cases hall : ∀ i, i < r → data.getD (idx + stride + i * stride) 0 = 0x47
        · rw [if_pos hall, if_pos ?side]
          · omega
          case side =>
            intro i hi
            cases i with
            | zero => simpa using h0
            | succ i' =>
                have := hall i' (by omega)
                have heq : idx + stride + i' * stride = idx + (i' + 1) * stride := by ring
                rw [heq] at this
                exact this
        · rw [if_neg hall, if_neg ?side2]
          case side2 =>
            intro hcon
            apply hall
            intro i hi
            have := hcon (i + 1) (by omega)
            have heq : idx + (i + 1) * stride = idx + stride + i * stride := by ring
            rw [heq] at this
            exact this
      · rw [if_pos (by simpa using h0)]
        rw [if_neg ?side3]
        case side3 =>
          intro hcon
          exact h0 (by simpa using hcon 0 (by omega))

theorem okCount_le_five (data : List Nat) (stride off : Nat) : okCount data stride off ≤ 5 := by
  have := okCountGo_le data stride 5 off 0 (by omega)
  simpa [okCount] using this

/-- Once a full-count candidate from a no-larger stride is held, later scans
never replace it. -/
theorem scanOffsets_keep (data : List Nat) (stride : Nat) (b : BestCandidate)
    (hok : b.okCount = 5) (hs : b.stride ≤ stride) :
    ∀ r off, scanOffsets data stride r off (some b) = some b := by
  intro r
  induction r with
  | zero => intro off; rfl
  | succ r ih =>
      intro off
      have hle : okCount data stride off ≤ 5 := okCount_le_five data stride off
      have hupd : updateBest (some b) stride off (okCount data stride off) = some b := by
        unfold updateBest
        by_cases hok0 : okCount data stride off ≤ 0
        · rw [if_pos hok0]
        · rw [if_neg hok0]
          show (if b.okCount < okCount data stride off ∨
              (okCount data stride off = b.okCount ∧ stride < b.stride) then
              some ⟨stride, off, okCount data stride off⟩ else some b) = some b
          rw [if_neg ?cond]
          case cond =>
            rintro (hlt | ⟨heq, hlt⟩)
            · rw [hok] at hlt; omega
            · omega
      simp only [scanOffsets, hupd, ih]

/-- Characterisation of one stride's offset scan started from `none`: it
fails exactly when no considered offset matches, and succeeds with the first
matching offset, a full count of 5, and this very stride. -/
theorem scanOffsets_none_spec (data : List Nat) (stride : Nat) (hs : 0 < stride) :
    ∀ r off, (∀ j, j < r → off + j + 5 * stride ≤ data.length) →
      (scanOffsets data stride r off none = none ↔
        ∀ j, j < r → ¬ SyncMatch data stride (off + j)) ∧
      (∀ b, scanOffsets data stride r off none = some b →
        b.stride = stride ∧ b.okCount = 5 ∧ off ≤ b.syncOffset ∧ b.syncOffset < off + r ∧
        SyncMatch data stride b.syncOffset ∧
        ∀ j, off ≤ j → j < b.syncOffset → ¬ SyncMatch data stride j) := by
  intro r
  induction r with
  | zero =>
      intro off _
      refine ⟨⟨fun _ j hj => absurd hj (by omega), fun _ => rfl⟩, ?_⟩
      intro b hb
      cases hb
  | succ r ih =>
      intro off hb
      have hbnd : off + 5 * stride ≤ data.length := by
        have := hb 0 (by omega)
        omega
      have hok := okCountGo_spec data stride hs 5 off 0 (by omega)
      by_cases hm : SyncMatch data stride off
      · have hok5 : okCount data stride off = 5 := by
          unfold okCount
          rw [hok, if_pos (show ∀ i, i < 5 → data.getD (off + i * stride) 0 = 0x47 from hm)]
          norm_num
        have hupd : updateBest none stride off (okCount data stride off) =
            some ⟨stride, off, 5⟩ := by
          rw [hok5]
          unfold updateBest
          norm_num
        have hkeep := scanOffsets_keep data stride ⟨stride, off, 5⟩ rfl (Nat.le_refl _) r (off + 1)
        constructor
        · rw [scanOffsets, hupd, hkeep]
          constructor
          · intro hcon
            cases hcon
          · intro hall
            exact absurd hm (by simpa using hall 0 (by omega))
        · intro b hbeq
          rw [scanOffsets, hupd, hkeep] at hbeq
          obtain rfl := (Option.some.inj hbeq).symm
          refine ⟨rfl, rfl, Nat.le_refl _, by show off < off + (r + 1); omega, hm, ?_⟩
          intro j hj1 hj2
          have hj2' : j < off := hj2
          intro _
          omega
      · have hokm1 : okCount data stride off = -1 := by
          unfold okCount
          rw [hok, if_neg (show ¬ ∀ i, i < 5 → data.getD (off + i * stride) 0 = 0x47 from hm)]
        have hupd : updateBest none stride off (okCount data stride off) = none := by
          rw [hokm1]
          unfold updateBest
          norm_num
        obtain ⟨ih1, ih2⟩ := ih (off + 1) (fun j hj => by have := hb (j + 1) (by omega); omega)
        constructor
        · rw [scanOffsets, hupd, ih1]
          constructor
          · intro hall j hj
            cases j with
            | zero =>
                intro hcon
                exact hm (by simpa using hcon)
            | succ j' =>
                have := hall j' (by omega)
                have heq : off + 1 + j' = off + (j' + 1) := by omega
                rw [heq] at this
                exact this
          · intro hall j hj
            have := hall (j + 1) (by omega)
            have heq : off + (j + 1) = off + 1 + j := by omega
            rw [heq] at this
            exact this
        · intro b hbeq
          rw [scanOffsets, hupd] at hbeq
          obtain ⟨g1, g2, g3, g4, g5, g6⟩ := ih2 b hbeq
          refine ⟨g1, g2, by omega, by omega, g5, ?_⟩
          intro j hj1 hj2
          by_cases hj : j = off
          · subst hj
            exact hm
          · exact g6 j (by omega) hj2

theorem okCount_eq_five_of_match (data : List Nat) (stride off : Nat) (hs : 0 < stride)
    (hoff : off < maxOffset data stride) (hm : SyncMatch data stride off) :
    okCount data stride off = 5 := by
  have hbound : off + 5 * stride ≤ data.length := by
    unfold maxOffset at hoff
    omega
  unfold okCount
  rw [okCountGo_spec data stride hs 5 off 0 (by omega),
    if_pos (show ∀ i, i < 5 → data.getD (off + i * stride) 0 = 0x47 from hm)]
  norm_num

/-- C5 (amended): the probe tries, for each stride in {188, 192, 204}, every
`sync_offset` in `[0, min(stride, max(0, len − 5·stride)))` — not all of
`[0, stride)` — a candidate matching iff 5 consecutive packets carry the sync
byte `0x47`; every considered matching candidate scores the maximal count 5,
the probe returns the matching candidate with the smallest stride (and the
smallest offset within it), any returned `(stride, sync_offset)` yields 5
consecutive valid sync bytes, and the probe fails iff no *considered*
candidate matches. -/
theorem ts_probe_stride_sync (data : List Nat) :
    (∀ s o, detectTsPacketStrideAndSyncOffset data = some (s, o) →
      s ∈ TS_STRIDE_CANDIDATES ∧ o < maxOffset data s ∧ SyncMatch data s o ∧
      okCount data s o = 5 ∧
      (∀ s', s' ∈ TS_STRIDE_CANDIDATES → s' < s →
        ∀ o', o' < maxOffset data s' → ¬ SyncMatch data s' o') ∧
      (∀ o', o' < o → ¬ SyncMatch data s o')) ∧
    (detectTsPacketStrideAndSyncOffset data = none ↔
      ∀ s ∈ TS_STRIDE_CANDIDATES, ∀ o, o < maxOffset data s → ¬ SyncMatch data s o) := by
  have hbnd : ∀ stride : Nat, ∀ j, j < maxOffset data stride →
      0 + j + 5 * stride ≤ data.length := by
    intro stride j hj
    unfold maxOffset at hj
    omega
  obtain ⟨i188, s188⟩ := scanOffsets_none_spec data 188 (by norm_num) (maxOffset data 188) 0
    (fun j hj => hbnd 188 j hj)
  obtain ⟨i192, s192⟩ := scanOffsets_none_spec data 192 (by norm_num) (maxOffset data 192) 0
    (fun j hj => hbnd 192 j hj)
  obtain ⟨i204, s204⟩ := scanOffsets_none_spec data 204 (by norm_num) (maxOffset data 204) 0
    (fun j hj => hbnd 204 j hj)
  have hdet : detectTsPacketStrideAndSyncOffset data =
      (scanOffsets data 204 (maxOffset data 204) 0
        (scanOffsets data 192 (maxOffset data 192) 0
          (scanOffsets data 188 (maxOffset data 188) 0 none))).map
        fun b => (b.stride, b.syncOffset) := by
    simp only [detectTsPacketStrideAndSyncOffset, TS_STRIDE_CANDIDATES, List.foldl_cons,
      List.foldl_nil]
  rcases h1 : scanOffsets data 188 (maxOffset data 188) 0 none with _ | b1
  · have hno188 : ∀ o, o < maxOffset data 188 → ¬ SyncMatch data 188 o := by
      intro o ho
      have := i188.mp h1 o ho
      simpa using this
    rcases h2 : scanOffsets data 192 (maxOffset data 192) 0 none with _ | b2
    · have hno192 : ∀ o, o < maxOffset data 192 → ¬ SyncMatch data 192 o := by
        intro o ho
        have := i192.mp h2 o ho
        simpa using this
      rcases h3 : scanOffsets data 204 (maxOffset data 204) 0 none with _ | b3
      · have hno204 : ∀ o, o < maxOffset data 204 → ¬ SyncMatch data 204 o := by
          intro o ho
          have := i204.mp h3 o ho
          simpa using this
        constructor
        · intro s o hso
          rw [hdet, h1, h2, h3] at hso
          cases hso
        · rw [hdet, h1, h2, h3]
          constructor
          · intro _ s hs o ho
            simp only [TS_STRIDE_CANDIDATES, List.mem_cons, List.mem_singleton,
              List.not_mem_nil, or_false] at hs
            rcases hs with rfl | rfl | rfl
            · exact hno188 o ho
            · exact hno192 o ho
            · exact hno204 o ho
          · intro _
            rfl
      · obtain ⟨g1, g2, g3, g4, g5, g6⟩ := s204 b3 h3
        refine ⟨?_, ?_⟩
        · intro s o hso
          rw [hdet, h1, h2, h3, Option.map_some'] at hso
          have hpair := Option.some.inj hso
          injection hpair with hseq hoeq
          subst hseq
          subst hoeq
          have hofflt : b3.syncOffset < maxOffset data 204 := by omega
          have hok5 := okCount_eq_five_of_match data 204 b3.syncOffset (by norm_num) hofflt g5
          refine ⟨?_, ?_, ?_, ?_, ?_, ?_⟩
          · rw [g1]
            simp [TS_STRIDE_CANDIDATES]
          · rw [g1]
            exact hofflt
          · rw [g1]
            exact g5
          · rw [g1]
            exact hok5
          · intro s' hs' hlt o' ho'
            rw [g1] at hlt
            simp only [TS_STRIDE_CANDIDATES, List.mem_cons, List.mem_singleton,
              List.not_mem_nil, or_false] at hs'
            rcases hs' with rfl | rfl | rfl
            · exact hno188 o' ho'
            · exact hno192 o' ho'
            · exact absurd hlt (by omega)
          · intro o' ho'
            rw [g1]
            exact g6 o' (by omega) ho'
        · rw [hdet, h1, h2, h3, Option.map_some']
          constructor
          · intro hcon
            cases hcon
          · intro hall
            exact absurd g5 (hall 204 (by simp [TS_STRIDE_CANDIDATES]) b3.syncOffset
              (by omega))
    · obtain ⟨g1, g2, g3, g4, g5, g6⟩ := s192 b2 h2
      have hkeep204 : scanOffsets data 204 (maxOffset data 204) 0 (some b2) = some b2 :=
        scanOffsets_keep data 204 b2 g2 (by omega) _ _
      refine ⟨?_, ?_⟩
      · intro s o hso
        rw [hdet, h1, h2, hkeep204, Option.map_some'] at hso
        have hpair := Option.some.inj hso
        injection hpair with hseq hoeq
        subst hseq
        subst hoeq
        have hofflt : b2.syncOffset < maxOffset data 192 := by omega
        have hok5 := okCount_eq_five_of_match data 192 b2.syncOffset (by norm_num) hofflt g5
        refine ⟨?_, ?_, ?_, ?_, ?_, ?_⟩
        · rw [g1]
          simp [TS_STRIDE_CANDIDATES]
        · rw [g1]
          exact hofflt
        · rw [g1]
          exact g5
        · rw [g1]
          exact hok5
        · intro s' hs' hlt o' ho'
          rw [g1] at hlt
          simp only [TS_STRIDE_CANDIDATES, List.mem_cons, List.mem_singleton,
            List.not_mem_nil, or_false] at hs'
          rcases hs' with rfl | rfl | rfl
          · exact hno188 o' ho'
          · exact absurd hlt (by omega)
          · exact absurd hlt (by omega)
        · intro o' ho'
          rw [g1]
          exact g6 o' (by omega) ho'
      · rw [hdet, h1, h2, hkeep204, Option.map_some']
        constructor
        · intro hcon
          cases hcon
        · intro hall
          exact absurd g5 (hall 192 (by simp [TS_STRIDE_CANDIDATES]) b2.syncOffset
            (by omega))
  · obtain ⟨g1, g2, g3, g4, g5, g6⟩ := s188 b1 h1
    have hkeep192 : scanOffsets data 192 (maxOffset data 192) 0 (some b1) = some b1 :=
      scanOffsets_keep data 192 b1 g2 (by omega) _ _
    have hkeep204 : scanOffsets data 204 (maxOffset data 204) 0 (some b1) = some b1 :=
      scanOffsets_keep data 204 b1 g2 (by omega) _ _
    refine ⟨?_, ?_⟩
    · intro s o hso
      rw [hdet, h1, hkeep192, hkeep204, Option.map_some'] at hso
      have hpair := Option.some.inj hso
      injection hpair with hseq hoeq
      subst hseq
      subst hoeq
      have hofflt : b1.syncOffset < maxOffset data 188 := by omega
      have hok5 := okCount_eq_five_of_match data 188 b1.syncOffset (by norm_num) hofflt g5
      refine ⟨?_, ?_, ?_, ?_, ?_, ?_⟩
      · rw [g1]
        simp [TS_STRIDE_CANDIDATES]
      · rw [g1]
        exact hofflt
      · rw [g1]
        exact g5
      · rw [g1]
        exact hok5
      · intro s' hs' hlt o' ho'
        rw [g1] at hlt
        simp only [TS_STRIDE_CANDIDATES, List.mem_cons, List.mem_singleton,
          List.not_mem_nil, or_false] at hs'
        rcases hs' with rfl | rfl | rfl
        · exact absurd hlt (by omega)
        · exact absurd hlt (by omega)
        · exact absurd hlt (by omega)
      · intro o' ho'
        rw [g1]
        exact g6 o' (by omega) ho'
    · rw [hdet, h1, hkeep192, hkeep204, Option.map_some']
      constructor
      · intro hcon
        cases hcon
      · intro hall
        exact absurd g5 (hall 188 (by simp [TS_STRIDE_CANDIDATES]) b1.syncOffset
          (by omega))

set_option maxRecDepth 40000 in
/-- C5 counterexample: a buffer of exactly five 188-byte packets (940 bytes),
each with a valid sync byte.  The candidate `(stride 188, sync_offset 0)`
matches in the claim's sense — five consecutive sync bytes, offset inside
`[0, 188)` — yet the probe fails, because its offset range
`min(stride, max(0, len − 5·stride))` is empty for every stride. -/
theorem ts_probe_short_buffer_refuted :
    detectTsPacketStrideAndSyncOffset
        ((List.range 940).map fun i => if i % 188 = 0 then 0x47 else 0) = none ∧
    SyncMatch ((List.range 940).map fun i => if i % 188 = 0 then 0x47 else 0) 188 0 ∧
    (0 : Nat) < 188 := by
  refine ⟨by decide, by decide, by decide⟩

set_option maxRecDepth 40000 in
/-- Witness for C5 on a 941-byte all-valid buffer, where the probe returns
stride 188 at offset 0. -/
theorem ts_probe_stride_sync_witness :
    188 ∈ TS_STRIDE_CANDIDATES ∧
    0 < maxOffset ((List.range 941).map fun i => if i % 188 = 0 then 0x47 else 0) 188 ∧
    SyncMatch ((List.range 941).map fun i => if i % 188 = 0 then 0x47 else 0) 188 0 ∧
    okCount ((List.range 941).map fun i => if i % 188 = 0 then 0x47 else 0) 188 0 = 5 ∧
    (∀ s', s' ∈ TS_STRIDE_CANDIDATES → s' < 188 →
      ∀ o', o' < maxOffset ((List.range 941).map fun i => if i % 188 = 0 then 0x47 else 0) s' →
        ¬ SyncMatch ((List.range 941).map fun i => if i % 188 = 0 then 0x47 else 0) s' o') ∧
    (∀ o', o' < 0 →
      ¬ SyncMatch ((List.range 941).map fun i => if i % 188 = 0 then 0x47 else 0) 188 o') :=
  (ts_probe_stride_sync _).1 188 0 (by decide)
